import Mathlib

/-!
Verification development for the AutomatedDocumentation repository.

Text is modelled as `List Char`.  Python strings are shallowly embedded:
`str.strip`, `str.splitlines`, `str.split`, `"\n".join`, slicing, and the
regular expressions actually used by the code are translated into explicit
recursive functions over `List Char`.  The embedding covers the ASCII
whitespace and line-boundary characters Python recognises (the rarely used
non-ASCII ones such as `\x85`, ` `, ` ` are outside the model).

Source files embedded below: `chunk_utils.py` (`_split_blocks`,
`_split_long_block`, `chunk_text`, the `_Simple` fallback tokenizer,
`strip_fim_tokens`), `cache.py` (`ResponseCache`), `llm_client.py`
(`sanitize_summary`, the prompt tables, `LLMClient.summarize`),
`manual_utils.py` (`_count_tokens`, `_split_text`, `_summarize_manual`),
`explaincode.py` (`infer_sections`, `map_evidence_to_sections`), and a
spec-modelled structural chunker (`_chunk_module_by_structure` is referenced
only by tests and is absent from the source tree).
-/

/-- Helper turning a Lean string literal into the `List Char` representation
used throughout the development. -/
def chars (s : String) : List Char := s.toList

/-- Python `str.isspace` characters (ASCII range), the set stripped by
`str.strip()` and used as separators by `str.split()`. -/
def isSpace (c : Char) : Bool :=
  c = ' ' || c = '\t' || c = '\n' || c = '\r' ||
  c = '\x0b' || c = '\x0c' || c = '\x1c' || c = '\x1d' || c = '\x1e'

/-- Characters that `str.splitlines` treats as a line boundary (ASCII range). -/
def isLineBreak (c : Char) : Bool :=
  c = '\n' || c = '\r' || c = '\x0b' || c = '\x0c' ||
  c = '\x1c' || c = '\x1d' || c = '\x1e'

/-- Python `str.lstrip()`. -/
def lstrip (s : List Char) : List Char := s.dropWhile (fun c => isSpace c)

/-- Python `str.rstrip()`. -/
def rstrip (s : List Char) : List Char := (s.reverse.dropWhile (fun c => isSpace c)).reverse

/-- Python `str.strip()`. -/
def strip (s : List Char) : List Char := rstrip (lstrip s)

/-- Worker for `splitlines`: `acc` holds the current (reversed) line; a
`"\r\n"` pair counts as a single boundary. -/
def splitlinesGo : List Char → List Char → List (List Char)
  | acc, [] => if acc.isEmpty then [] else [acc.reverse]
  | acc, '\r' :: '\n' :: rest => acc.reverse :: splitlinesGo [] rest
  | acc, '\r' :: rest => acc.reverse :: splitlinesGo [] rest
  | acc, c :: rest =>
    if isLineBreak c then acc.reverse :: splitlinesGo [] rest
    else splitlinesGo (c :: acc) rest

/-- Python `str.splitlines()`: lines without their terminators; a final
segment after the last terminator is emitted only when nonempty. -/
def splitlines (s : List Char) : List (List Char) := splitlinesGo [] s

/-- Python `"\n".join(lines)`. -/
def interNL : List (List Char) → List Char
  | [] => []
  | [l] => l
  | l :: ls => l ++ '\n' :: interNL ls

/-- Python `"\n\n".join(blocks)`. -/
def interNN : List (List Char) → List Char
  | [] => []
  | [b] => b
  | b :: bs => b ++ '\n' :: '\n' :: interNN bs

/-- Python `" ".join(parts)`. -/
def interSP : List (List Char) → List Char
  | [] => []
  | [b] => b
  | b :: bs => b ++ ' ' :: interSP bs

/-- The three FIM special tokens matched by `FIM_RE` in `chunk_utils.py`. -/
def fimTokens : List (List Char) :=
  [chars "<|fim_prefix|>", chars "<|fim_middle|>", chars "<|fim_suffix|>"]

/-- Worker for `strip_fim_tokens`: scans left to right; at a `'<'` it tests
whether one of the three FIM tokens starts here and, if so, skips its
remaining 13 characters.  The fuel argument makes the recursion structural;
each step consumes at least one character, so `s.length` fuel suffices. -/
def stripFimGo : Nat → List Char → List Char
  | _, [] => []
  | 0, l => l
  | fuel + 1, '<' :: rest =>
    if (chars "|fim_prefix|>").isPrefixOf rest ||
        (chars "|fim_middle|>").isPrefixOf rest ||
        (chars "|fim_suffix|>").isPrefixOf rest then
      stripFimGo fuel (rest.drop 13)
    else '<' :: stripFimGo fuel rest
  | fuel + 1, c :: rest => c :: stripFimGo fuel rest

/-- `strip_fim_tokens` (`chunk_utils.py`): `FIM_RE.sub("", text)`, a
left-to-right non-overlapping removal of the three FIM tokens
`<|fim_prefix|>`, `<|fim_middle|>`, `<|fim_suffix|>`. -/
def stripFim (s : List Char) : List Char := stripFimGo s.length s

/-- Worker for `wordsOf`: Python `str.split()` with no argument. -/
def wordsGo : List Char → List Char → List (List Char)
  | acc, [] => if acc.isEmpty then [] else [acc.reverse]
  | acc, c :: rest =>
    if isSpace c then
      if acc.isEmpty then wordsGo [] rest else acc.reverse :: wordsGo [] rest
    else wordsGo (c :: acc) rest

/-- Python `str.split()`: maximal runs of non-whitespace characters. -/
def wordsOf (s : List Char) : List (List Char) := wordsGo [] s

/-- `_Simple.encode` from `get_tokenizer` (`chunk_utils.py`), the fallback
tokenizer used when `tiktoken` is unavailable:
`text = strip_fim_tokens(text); return text.split()`. -/
def simpleEncode (s : List Char) : List (List Char) := wordsOf (stripFim s)

/-- `manual_utils._count_tokens` with the fallback tokenizer:
`len(TOKENIZER.encode(text))`. -/
def countTokens (s : List Char) : Nat := (simpleEncode s).length

/-- The triple-backtick fence marker. -/
def fenceMark : List Char := ['`', '`', '`']

/-- `line.startswith("```")`. -/
def startsFence (l : List Char) : Bool := fenceMark.isPrefixOf l

/-- `line.strip() == ""`. -/
def isBlank (l : List Char) : Bool := (strip l).isEmpty

/-- `line.lstrip().startswith("#")`. -/
def isHeading (l : List Char) : Bool := (lstrip l).head? = some '#'

/-- Append a block, dropping it when empty — the `[b for b in blocks if b]`
filter of `_split_blocks` applied at emission time. -/
def emitBlock (b : List Char) : List (List Char) := if b.isEmpty then [] else [b]

/-- The line loop of `_split_blocks` (`chunk_utils.py`), with the `blocks`
accumulator turned into the returned list (appends become emissions, in the
same order).  `current` is the list of accumulated lines, `inCode` the
`in_code` flag. -/
def splitBlocksLoop : List (List Char) → List (List Char) → Bool → List (List Char)
  | [], current, _ =>
    if current.isEmpty then [] else emitBlock (strip (interNL current))
  | line :: ls, current, inCode =>
    if startsFence line then
      if inCode then
        emitBlock (strip (interNL (current ++ [line]))) ++ splitBlocksLoop ls [] false
      else
        (if current.isEmpty then [] else emitBlock (strip (interNL current))) ++
          splitBlocksLoop ls [line] true
    else if inCode then
      splitBlocksLoop ls (current ++ [line]) true
    else if isBlank line then
      (if current.isEmpty then [] else emitBlock (strip (interNL current))) ++
        splitBlocksLoop ls [] false
    else if isHeading line then
      (if current.isEmpty then [] else emitBlock (strip (interNL current))) ++
        emitBlock (strip line) ++ splitBlocksLoop ls [] false
    else
      splitBlocksLoop ls (current ++ [line]) false

/-- `_split_blocks` (`chunk_utils.py`). -/
def splitBlocks (text : List Char) : List (List Char) :=
  splitBlocksLoop (splitlines text) [] false

/-- Fuel-driven worker for `charSlices`.  Each step consumes at least one
character, so fuel `s.length` never runs out and the fuel-exhausted branch is
unreachable for the caller below. -/
def charSlicesGo (n : Nat) : Nat → List Char → List (List Char)
  | _, [] => []
  | 0, s => [s]
  | fuel + 1, s => s.take (max n 1) :: charSlicesGo n fuel (s.drop (max n 1))

/-- Character slicing `[block[i : i + n] for i in range(0, len(block), n)]`.
The slice width is clamped to be at least 1, as the caller guarantees via
`max(..., 1)`. -/
def charSlices (n : Nat) (s : List Char) : List (List Char) :=
  charSlicesGo n s.length s

/-- `_split_long_block` (`chunk_utils.py`), over an abstract `encode`
function standing for `tokenizer.encode`. -/
def splitLongBlock (encode : List Char → List (List Char)) (block : List Char)
    (budget : Nat) : List (List Char) :=
  let tokens := encode block
  if tokens.length ≤ budget then [block]
  else
    let avgChars := max (block.length / tokens.length) 1
    let maxChars := max (budget * avgChars) 1
    charSlices maxChars block

/-- The block loop of `chunk_text` (`chunk_utils.py`), emission style:
flush the running chunk when the next block would overflow, fallback-split
blocks that alone exceed the budget, otherwise accumulate. -/
def chunkTextLoop (encode : List Char → List (List Char)) (budget : Nat) :
    List (List Char) → List (List Char) → Nat → List (List Char)
  | [], current, _ => if current.isEmpty then [] else [interNN current]
  | b :: bs, current, tc =>
    let bt := (encode b).length
    let flushed : List (List Char) :=
      if budget < tc + bt && !current.isEmpty then [interNN current] else []
    let cur : List (List Char) :=
      if budget < tc + bt && !current.isEmpty then [] else current
    let cnt : Nat :=
      if budget < tc + bt && !current.isEmpty then 0 else tc
    if budget < bt then
      flushed ++ splitLongBlock encode b budget ++ chunkTextLoop encode budget bs cur cnt
    else
      flushed ++ chunkTextLoop encode budget bs (cur ++ [b]) (cnt + bt)

/-- `chunk_text` (`chunk_utils.py`) for a present `text` and tokenizer. -/
def chunkText (encode : List Char → List (List Char)) (text : List Char)
    (budget : Nat) : List (List Char) :=
  chunkTextLoop encode budget (splitBlocks text) [] 0

example : splitBlocks (chars "# H1\npara1\n\n# H2\npara2") =
    [chars "# H1", chars "para1", chars "# H2", chars "para2"] := by decide

example : splitBlocks (chars "Intro\n\n```python\nprint('hi')\n```\n\nConclusion") =
    [chars "Intro", chars "```python\nprint('hi')\n```", chars "Conclusion"] := by decide

example : chunkText simpleEncode (chars "```\na b c d\n```") 2 =
    [chars "```\n", chars "a b ", chars "c d\n", chars "```"] := by decide

/-! ## Reconstruction of the input from the splitter's blocks (claim C1) -/

/-- `Recon text blocks` states that `text` is reproduced exactly by
concatenating the `blocks` in order with the original (whitespace-only)
separators restored around them:
`text = w₀ ++ b₁ ++ w₁ ++ … ++ bₙ ++ wₙ` with every `wᵢ` whitespace. -/
inductive Recon : List Char → List (List Char) → Prop
  | nil (w : List Char) (hw : w.all isSpace) : Recon w []
  | cons (w b t : List Char) (bs : List (List Char)) (hw : w.all isSpace)
      (h : Recon t bs) : Recon (w ++ b ++ t) (b :: bs)

theorem Recon.padLeft {w t : List Char} {bs : List (List Char)}
    (hw : w.all isSpace) (h : Recon t bs) : Recon (w ++ t) bs := by
  induction h with
  | nil w' hw' =>
    exact Recon.nil (w ++ w') (by simp_all [List.all_append])
  | cons w' b t' bs' hw' h _ih =>
    have hcons := Recon.cons (w ++ w') b t' bs' (by simp_all [List.all_append]) h
    simpa [List.append_assoc] using hcons

theorem Recon.glue {A C : List Char} {B D : List (List Char)}
    (h1 : Recon A B) (h2 : Recon C D) : Recon (A ++ C) (B ++ D) := by
  induction h1 with
  | nil w hw => simpa using Recon.padLeft hw h2
  | cons w b t bs hw _h ih =>
    have hcons := Recon.cons w b (t ++ C) (bs ++ D) hw ih
    simpa [List.append_assoc] using hcons

theorem Recon.padRight {t : List Char} {bs : List (List Char)} (h : Recon t bs)
    {w : List Char} (hw : w.all isSpace) : Recon (t ++ w) bs := by
  simpa using h.glue (Recon.nil w hw)

theorem Recon.glue3 {A C : List Char} {B D : List (List Char)} (h1 : Recon A B)
    {w : List Char} (hw : w.all isSpace) (h2 : Recon C D) :
    Recon (A ++ w ++ C) (B ++ D) := by
  have hg := (h1.padRight hw).glue h2
  simpa [List.append_assoc] using hg

theorem lstrip_decomp (s : List Char) :
    ∃ w, w.all isSpace ∧ s = w ++ lstrip s := by
  refine ⟨s.takeWhile (fun c => isSpace c), ?_, ?_⟩
  · simp only [List.all_eq_true]
    intro c hc
    exact List.mem_takeWhile_imp hc
  · exact (List.takeWhile_append_dropWhile (p := fun c => isSpace c) (l := s)).symm

theorem rstrip_decomp (s : List Char) :
    ∃ w, w.all isSpace ∧ s = rstrip s ++ w := by
  refine ⟨(s.reverse.takeWhile (fun c => isSpace c)).reverse, ?_, ?_⟩
  · simp only [List.all_eq_true, List.mem_reverse]
    intro c hc
    exact List.mem_takeWhile_imp hc
  · have h := List.takeWhile_append_dropWhile (p := fun c => isSpace c) (l := s.reverse)
    calc s = s.reverse.reverse := (List.reverse_reverse s).symm
    _ = ((s.reverse.takeWhile (fun c => isSpace c)) ++
          (s.reverse.dropWhile (fun c => isSpace c))).reverse := by rw [h]
    _ = rstrip s ++ (s.reverse.takeWhile (fun c => isSpace c)).reverse := by
          rw [List.reverse_append]; rfl

theorem strip_decomp (s : List Char) :
    ∃ w1 w2, w1.all isSpace ∧ w2.all isSpace ∧ s = w1 ++ strip s ++ w2 := by
  obtain ⟨w1, hw1, h1⟩ := lstrip_decomp s
  obtain ⟨w2, hw2, h2⟩ := rstrip_decomp (lstrip s)
  refine ⟨w1, w2, hw1, hw2, ?_⟩
  conv_lhs => rw [h1, h2]
  simp [strip, List.append_assoc]

theorem all_isSpace_of_strip_nil {s : List Char} (h : strip s = []) :
    s.all isSpace := by
  obtain ⟨w1, w2, hw1, hw2, hs⟩ := strip_decomp s
  rw [h] at hs
  rw [hs]
  simp [List.all_append, hw1, hw2]

theorem recon_strip_emit (s : List Char) : Recon s (emitBlock (strip s)) := by
  by_cases h : (strip s).isEmpty
  · rw [emitBlock, if_pos h]
    exact Recon.nil s (all_isSpace_of_strip_nil (List.isEmpty_iff.mp h))
  · rw [emitBlock, if_neg h]
    obtain ⟨w1, w2, hw1, hw2, hs⟩ := strip_decomp s
    have hc := Recon.cons w1 (strip s) w2 [] hw1 (Recon.nil w2 hw2)
    rw [← hs] at hc
    exact hc

theorem interNL_nil : interNL [] = [] := rfl

theorem interNL_single (l : List Char) : interNL [l] = l := rfl

theorem interNL_cons_ne (l : List Char) {ls : List (List Char)} (h : ls ≠ []) :
    interNL (l :: ls) = l ++ '\n' :: interNL ls := by
  cases ls with
  | nil => exact absurd rfl h
  | cons a as => rfl

theorem interNL_append_ne {A B : List (List Char)} (hA : A ≠ []) (hB : B ≠ []) :
    interNL (A ++ B) = interNL A ++ '\n' :: interNL B := by
  induction A with
  | nil => exact absurd rfl hA
  | cons a as ih =>
    cases as with
    | nil => simpa using interNL_cons_ne a hB
    | cons b bs =>
      have h1 : interNL ((a :: b :: bs) ++ B) = a ++ '\n' :: interNL ((b :: bs) ++ B) := by
        rw [List.cons_append]
        exact interNL_cons_ne a (by simp)
      rw [h1, ih (by simp), interNL_cons_ne a (by simp)]
      simp [List.append_assoc]

/-- Uniform decomposition of `"\n".join` around a middle line. -/
theorem interNL_middle (current ls : List (List Char)) (line : List Char) :
    interNL (current ++ line :: ls) =
      interNL current ++ (if current.isEmpty then [] else ['\n']) ++ line ++
        (if ls.isEmpty then [] else ['\n']) ++ interNL ls := by
  cases current with
  | nil =>
    cases ls with
    | nil => simp [interNL_nil, interNL_single]
    | cons a as =>
      simp [interNL_nil, @interNL_cons_ne line (a :: as) (by simp)]
  | cons c cs =>
    cases ls with
    | nil =>
      rw [interNL_append_ne (A := c :: cs) (by simp) (by simp)]
      simp [interNL_nil, interNL_single, List.append_assoc]
    | cons a as =>
      rw [interNL_append_ne (A := c :: cs) (by simp) (by simp),
        @interNL_cons_ne line (a :: as) (by simp)]
      simp [List.append_assoc]

theorem nlIf_ws (b : Bool) : (if b then ([] : List Char) else ['\n']).all isSpace := by
  cases b <;> decide

theorem maybeEmit_eq (current : List (List Char)) :
    (if current.isEmpty then ([] : List (List Char))
      else emitBlock (strip (interNL current))) =
      emitBlock (strip (interNL current)) := by
  cases current with
  | nil => simp [interNL, strip, lstrip, rstrip, emitBlock]
  | cons a as => simp

/-- Every emitted prefix together with the recursive remainder reconstructs
the joined pending lines: the central invariant of `_split_blocks`. -/
theorem recon_loop (ls : List (List Char)) :
    ∀ current inCode,
      Recon (interNL (current ++ ls)) (splitBlocksLoop ls current inCode) := by
  induction ls with
  | nil =>
    intro current inCode
    simp only [splitBlocksLoop]
    rw [maybeEmit_eq]
    simpa using recon_strip_emit (interNL current)
  | cons line ls ih =>
    intro current inCode
    by_cases hf : startsFence line = true
    · by_cases hc : inCode = true
      · -- closing fence: flush `current ++ [line]` as one code block
        simp only [splitBlocksLoop, hf, hc, if_true]
        rw [interNL_middle current ls line]
        have hih : Recon (interNL ls) (splitBlocksLoop ls [] false) := by
          simpa using ih [] false
        have g := (recon_strip_emit (interNL (current ++ [line]))).glue3
          (nlIf_ws ls.isEmpty) hih
        nth_rewrite 1 [interNL_middle current [] line] at g
        simpa [List.append_assoc] using g
      · -- opening fence: flush `current`, start a code block with `line`
        rw [Bool.not_eq_true] at hc
        simp only [splitBlocksLoop, hf, hc, if_true, Bool.false_eq_true, if_false]
        rw [maybeEmit_eq, interNL_middle current ls line]
        have hih : Recon (line ++ (if ls.isEmpty then [] else ['\n']) ++ interNL ls)
            (splitBlocksLoop ls [line] true) := by
          have h0 := ih [line] true
          rw [show ([line] ++ ls) = [] ++ line :: ls by simp,
            interNL_middle [] ls line] at h0
          simpa [List.append_assoc] using h0
        have g := (recon_strip_emit (interNL current)).glue3
          (nlIf_ws current.isEmpty) hih
        simpa [List.append_assoc] using g
    · rw [Bool.not_eq_true] at hf
      by_cases hc : inCode = true
      · -- inside a fence: accumulate the line
        simp only [splitBlocksLoop, hf, hc, Bool.false_eq_true, if_false, if_true]
        have h0 := ih (current ++ [line]) true
        simpa [List.append_assoc] using h0
      · rw [Bool.not_eq_true] at hc
        by_cases hb : isBlank line = true
        · -- blank line: flush `current`; the line itself is whitespace
          simp only [splitBlocksLoop, hf, hc, hb, Bool.false_eq_true, if_false, if_true]
          rw [maybeEmit_eq, interNL_middle current ls line]
          have hline : line.all isSpace := by
            rw [isBlank] at hb
            exact all_isSpace_of_strip_nil (List.isEmpty_iff.mp hb)
          have hih : Recon (interNL ls) (splitBlocksLoop ls [] false) := by
            simpa using ih [] false
          have hw : ((if current.isEmpty then ([] : List Char) else ['\n']) ++ line ++
              (if ls.isEmpty then [] else ['\n'])).all isSpace := by
            have hnl : isSpace '\n' = true := by decide
            simp [List.all_append, nlIf_ws current.isEmpty, nlIf_ws ls.isEmpty, hline,
              hnl]
          have g := (recon_strip_emit (interNL current)).glue3 hw hih
          simpa [List.append_assoc] using g
        · by_cases hh : isHeading line = true
          · -- heading: flush `current`, emit the stripped heading line
            simp only [splitBlocksLoop, hf, hc, hb, hh, Bool.false_eq_true, if_false,
              if_true]
            rw [maybeEmit_eq, interNL_middle current ls line]
            have hih : Recon (interNL ls) (splitBlocksLoop ls [] false) := by
              simpa using ih [] false
            have inner := (recon_strip_emit line).glue3 (nlIf_ws ls.isEmpty) hih
            have g := (recon_strip_emit (interNL current)).glue3
              (nlIf_ws current.isEmpty) inner
            simpa [List.append_assoc] using g
          · -- ordinary paragraph line: accumulate
            rw [Bool.not_eq_true] at hh
            simp only [splitBlocksLoop, hf, hc, hb, hh, Bool.false_eq_true, if_false]
            have h0 := ih (current ++ [line]) false
            simpa [List.append_assoc] using h0

/-- A text is *tame* when the only line-boundary character occurring in it is
`'\n'` (no `'\r'`, `'\x0b'`, …). -/
def tameText (s : List Char) : Bool := s.all (fun c => !(isLineBreak c) || c = '\n')

theorem splitlinesGo_recombine :
    ∀ s acc, tameText s = true →
      ∃ t, t.all isSpace ∧ interNL (splitlinesGo acc s) ++ t = acc.reverse ++ s := by
  intro s
  induction s with
  | nil =>
    intro acc _
    refine ⟨[], rfl, ?_⟩
    by_cases ha : acc.isEmpty = true
    · simp only [splitlinesGo, ha, if_true, interNL_nil]
      simp [List.isEmpty_iff.mp ha]
    · have hend : splitlinesGo acc [] = [acc.reverse] := by
        simp only [splitlinesGo]
        rw [if_neg ha]
      rw [hend, interNL_single]
  | cons c rest ih =>
    intro acc htame
    have htr : tameText rest = true := by
      simp only [tameText, List.all_cons, Bool.and_eq_true] at htame
      exact htame.2
    by_cases hcn : c = '\n'
    · subst hcn
      have heq : splitlinesGo acc ('\n' :: rest) = acc.reverse :: splitlinesGo [] rest :=
        rfl
      rw [heq]
      obtain ⟨t, ht, hL⟩ := ih [] htr
      simp only [List.reverse_nil, List.nil_append] at hL
      cases hLs : splitlinesGo [] rest with
      | nil =>
        rw [hLs] at hL
        rw [interNL_nil] at hL
        simp only [List.nil_append] at hL
        refine ⟨'\n' :: t, ?_, ?_⟩
        · simp only [List.all_cons, ht, Bool.and_true]
          decide
        · rw [interNL_single]
          simp [hL]
      | cons l L =>
        rw [hLs] at hL
        refine ⟨t, ht, ?_⟩
        rw [@interNL_cons_ne _ (l :: L) (by simp)]
        simp [List.append_assoc, hL]
    · have hlb : isLineBreak c = false := by
        simp only [tameText, List.all_cons, Bool.and_eq_true] at htame
        rcases Bool.or_eq_true_iff.mp htame.1 with h | h
        · simpa using h
        · exact absurd (by simpa using h) hcn
      have hcr : c ≠ '\r' := by
        intro hr
        rw [hr] at hlb
        simp [isLineBreak] at hlb
      have heq : splitlinesGo acc (c :: rest) = splitlinesGo (c :: acc) rest := by
        rw [splitlinesGo.eq_def]
        split
        all_goals simp_all
      rw [heq]
      obtain ⟨t, ht, hL⟩ := ih (c :: acc) htr
      refine ⟨t, ht, ?_⟩
      rw [hL]
      simp [List.reverse_cons, List.append_assoc]

theorem splitlines_recombine {s : List Char} (h : tameText s = true) :
    ∃ t, t.all isSpace ∧ interNL (splitlines s) ++ t = s := by
  simpa [splitlines] using splitlinesGo_recombine s [] h

theorem Recon.inv_single {x b : List Char} (h : Recon x [b]) :
    ∃ w t, w.all isSpace ∧ t.all isSpace ∧ x = w ++ b ++ t := by
  cases h with
  | cons w b' t bs hw ht =>
    cases ht with
    | nil _w2 hw2 => exact ⟨w, t, hw, hw2, rfl⟩

/-- C1, counterexample.  On the CRLF input `"a\r\nb"` the splitter returns the
single block `"a\nb"`: the interior `"\r\n"` was replaced by `"\n"`, so no
choice of whitespace separators around the block texts can reproduce the input
exactly. -/
theorem c1_counterexample :
    splitBlocks (chars "a\r\nb") = [chars "a\nb"] ∧
      ¬ Recon (chars "a\r\nb") (splitBlocks (chars "a\r\nb")) := by
  refine ⟨by decide, ?_⟩
  intro h
  rw [(by decide : splitBlocks (chars "a\r\nb") = [chars "a\nb"]),
    (by decide : chars "a\nb" = ['a', '\n', 'b'])] at h
  rw [(by decide : chars "a\r\nb" = ['a', '\r', '\n', 'b'])] at h
  obtain ⟨w, t, hw, _ht, heq⟩ := Recon.inv_single h
  rcases w with _ | ⟨c, w'⟩
  · simp only [List.nil_append, List.cons_append, List.cons.injEq] at heq
    obtain ⟨-, h2, -⟩ := heq
    exact absurd h2 (by decide)
  · simp only [List.cons_append, List.cons.injEq] at heq
    obtain ⟨hc, -⟩ := heq
    rw [← hc] at hw
    simp only [List.all_cons, Bool.and_eq_true] at hw
    exact absurd hw.1 (by decide)

/-- C1 (amended): for every input text whose only line-boundary character is
`'\n'`, the block texts returned by `_split_blocks`, concatenated in order
with the original whitespace-only separators restored around them, reproduce
the input text exactly; on texts containing other line boundaries (`'\r'`,
CRLF, …) the splitter rewrites them to `'\n'` and exact reconstruction can
fail. -/
theorem c1_splitter_reconstruction (text : List Char) (h : tameText text = true) :
    Recon text (splitBlocks text) := by
  obtain ⟨t, ht, hrec⟩ := splitlines_recombine h
  have hloop := recon_loop (splitlines text) [] false
  simp only [List.nil_append] at hloop
  have hpad := hloop.padRight ht
  rw [hrec] at hpad
  exact hpad

/-- Witness for `c1_splitter_reconstruction` at a concrete document with a
heading, a paragraph, a fenced code block and assorted surrounding
whitespace. -/
theorem c1_splitter_reconstruction_witness :
    tameText (chars "# T\n\n  body text \n\n```\ncode 1\n```\n") = true ∧
      Recon (chars "# T\n\n  body text \n\n```\ncode 1\n```\n")
        (splitBlocks (chars "# T\n\n  body text \n\n```\ncode 1\n```\n")) :=
  ⟨by decide, c1_splitter_reconstruction _ (by decide)⟩

/-! ## The packer view of `chunk_text` (claims C2, C3) -/

/-- The greedy loop of `chunk_text`, seen as grouping blocks instead of
joining them.  It mirrors `chunkTextLoop` exactly on runs where no single
block exceeds the budget (the fallback branch never fires there). -/
def packLoop (encode : List Char → List (List Char)) (budget : Nat) :
    List (List Char) → List (List Char) → Nat → List (List (List Char))
  | [], current, _ => if current.isEmpty then [] else [current]
  | b :: bs, current, tc =>
    let bt := (encode b).length
    if budget < tc + bt && !current.isEmpty then
      current :: packLoop encode budget bs [b] bt
    else
      packLoop encode budget bs (current ++ [b]) (tc + bt)

/-- The groups `chunk_text` packs the splitter's blocks into. -/
def packBlocks (encode : List Char → List (List Char)) (text : List Char)
    (budget : Nat) : List (List (List Char)) :=
  packLoop encode budget (splitBlocks text) [] 0

/-- Token-count sum of a group of blocks (no separator overhead). -/
def groupTokens (encode : List Char → List (List Char))
    (g : List (List Char)) : Nat :=
  (g.map (fun b => (encode b).length)).sum

theorem chunkTextLoop_eq_pack (encode : List Char → List (List Char))
    (budget : Nat) :
    ∀ (bs : List (List Char)), (∀ b ∈ bs, (encode b).length ≤ budget) →
      ∀ current tc, chunkTextLoop encode budget bs current tc =
        (packLoop encode budget bs current tc).map interNN := by
  intro bs
  induction bs with
  | nil =>
    intro _ current tc
    simp only [chunkTextLoop, packLoop]
    by_cases h : current.isEmpty = true
    · simp [h]
    · simp [h]
  | cons b bs ih =>
    intro hfit current tc
    have hb : (encode b).length ≤ budget := hfit b (by simp)
    have hb' : ¬ (budget < (encode b).length) := not_lt.mpr hb
    have htail : ∀ x ∈ bs, (encode x).length ≤ budget := by
      intro x hx
      exact hfit x (by simp [hx])
    simp only [chunkTextLoop, packLoop]
    by_cases hflush : (budget < tc + (encode b).length && !current.isEmpty) = true
    · simp only [hflush, if_true, if_neg hb']
      rw [ih htail ([] ++ [b]) (0 + (encode b).length)]
      simp
    · simp only [hflush, if_false, Bool.false_eq_true, if_neg hb']
      rw [ih htail (current ++ [b]) (tc + (encode b).length)]
      simp

theorem packLoop_groups (encode : List Char → List (List Char)) (budget : Nat) :
    ∀ (bs : List (List Char)), (∀ b ∈ bs, (encode b).length ≤ budget) →
      ∀ current tc, tc = groupTokens encode current → tc ≤ budget →
        ∀ g ∈ packLoop encode budget bs current tc,
          groupTokens encode g ≤ budget ∧ g ≠ [] := by
  intro bs
  induction bs with
  | nil =>
    intro _ current tc htc hle g hg
    simp only [packLoop] at hg
    by_cases h : current.isEmpty = true
    · simp [h] at hg
    · rw [if_neg h] at hg
      simp only [List.mem_singleton] at hg
      subst hg
      exact ⟨htc ▸ hle, by simpa [List.isEmpty_iff] using h⟩
  | cons b bs ih =>
    intro hfit current tc htc hle g hg
    have hb : (encode b).length ≤ budget := hfit b (by simp)
    have htail : ∀ x ∈ bs, (encode x).length ≤ budget := by
      intro x hx
      exact hfit x (by simp [hx])
    simp only [packLoop] at hg
    by_cases hflush : (budget < tc + (encode b).length && !current.isEmpty) = true
    · rw [if_pos hflush] at hg
      rcases List.mem_cons.mp hg with hgc | hg'
      · rw [hgc]
        have hcur : current ≠ [] := by
          intro hnil
          rw [hnil] at hflush
          simp at hflush
        exact ⟨htc ▸ hle, hcur⟩
      · exact ih htail [b] ((encode b).length)
          (by simp [groupTokens]) hb g hg'
    · rw [if_neg hflush] at hg
      have hnext : tc + (encode b).length ≤ budget := by
        by_cases hlt : budget < tc + (encode b).length
        · have hcur : current.isEmpty = true := by
            by_contra hne
            apply hflush
            simp [hlt, hne]
          have hcur' : current = [] := List.isEmpty_iff.mp hcur
          rw [hcur'] at htc
          simp only [groupTokens, List.map_nil, List.sum_nil] at htc
          omega
        · omega
      exact ih htail (current ++ [b]) (tc + (encode b).length)
        (by simp [groupTokens, htc, List.map_append]) hnext g hg

/-! ## Fence markers (claim C2) -/

/-- Split on `'\n'` only, keeping a (possibly empty) final segment — the
lines of an emitted chunk, used to count fence markers. -/
def linesNL : List Char → List (List Char)
  | [] => [[]]
  | c :: r =>
    if c = '\n' then [] :: linesNL r
    else
      match linesNL r with
      | l :: ls => (c :: l) :: ls
      | [] => [[c]]

/-- Number of triple-backtick fence-marker lines in a chunk: lines that
start with three backticks. -/
def markerCount (s : List Char) : Nat :=
  (linesNL s).countP (fun l => startsFence l)

theorem linesNL_ne_nil (s : List Char) : linesNL s ≠ [] := by
  induction s with
  | nil => simp [linesNL]
  | cons c r ih =>
    simp only [linesNL]
    by_cases h : c = '\n'
    · simp [h]
    · rw [if_neg h]
      cases hr : linesNL r with
      | nil => simp
      | cons l ls => simp

theorem dropLast_append_getLastD {α : Type} :
    ∀ (l : List (List α)), l ≠ [] → l.dropLast ++ [l.getLastD []] = l
  | [], h => absurd rfl h
  | [x], _ => by simp
  | x :: y :: ys, _ => by
    have ih := dropLast_append_getLastD (y :: ys) (by simp)
    simp only [List.getLastD_cons] at ih ⊢
    rw [List.dropLast_cons₂, List.cons_append, ih]

theorem linesNL_append_nl (t : List Char) :
    ∀ a, linesNL (a ++ '\n' :: t) =
      (linesNL a).dropLast ++ ((linesNL a).getLastD [] :: linesNL t) := by
  intro a
  induction a with
  | nil => simp [linesNL]
  | cons c a' ih =>
    by_cases h : c = '\n'
    · subst h
      rw [List.cons_append]
      simp only [linesNL, if_pos rfl]
      rw [ih]
      cases hL : linesNL a' with
      | nil => exact absurd hL (linesNL_ne_nil a')
      | cons l0 ls0 =>
        cases ls0 with
        | nil => simp [List.getLastD_cons]
        | cons l1 ls1 =>
          simp [List.dropLast_cons₂, List.getLastD_cons, List.cons_append]
    · rw [List.cons_append]
      simp only [linesNL, if_neg h]
      rw [ih]
      cases hL : linesNL a' with
      | nil => exact absurd hL (linesNL_ne_nil a')
      | cons l0 ls0 =>
        cases ls0 with
        | nil => simp [List.getLastD_cons]
        | cons l1 ls1 =>
          simp [List.dropLast_cons₂, List.getLastD_cons, List.cons_append]

theorem markerCount_nil : markerCount [] = 0 := by decide

theorem markerCount_append_nl (a t : List Char) :
    markerCount (a ++ '\n' :: t) = markerCount a + markerCount t := by
  unfold markerCount
  rw [linesNL_append_nl t a]
  conv_rhs => rw [← dropLast_append_getLastD (linesNL a) (linesNL_ne_nil a)]
  simp only [List.countP_append, List.countP_cons, List.countP_nil]
  omega

theorem markerCount_cons_nl (t : List Char) :
    markerCount ('\n' :: t) = markerCount t := by
  have h := markerCount_append_nl [] t
  simpa [markerCount_nil] using h

theorem markerCount_interNN {g : List (List Char)}
    (h : ∀ b ∈ g, markerCount b % 2 = 0) : markerCount (interNN g) % 2 = 0 := by
  induction g with
  | nil => simp [interNN, markerCount_nil]
  | cons b bs ih =>
    cases bs with
    | nil => simpa [interNN] using h b (by simp)
    | cons b2 bs2 =>
      have he : interNN (b :: b2 :: bs2) = b ++ '\n' :: ('\n' :: interNN (b2 :: bs2)) :=
        rfl
      rw [he, markerCount_append_nl, markerCount_cons_nl]
      have hb := h b (by simp)
      have hbs := ih (by intro x hx; exact h x (by simp [hx]))
      omega

theorem packLoop_mem (encode : List Char → List (List Char)) (budget : Nat) :
    ∀ (bs : List (List Char)) current tc g b,
      g ∈ packLoop encode budget bs current tc → b ∈ g →
        b ∈ current ∨ b ∈ bs := by
  intro bs
  induction bs with
  | nil =>
    intro current tc g b hg hb
    simp only [packLoop] at hg
    by_cases h : current.isEmpty = true
    · simp [h] at hg
    · rw [if_neg h] at hg
      simp only [List.mem_singleton] at hg
      rw [hg] at hb
      exact Or.inl hb
  | cons x bs ih =>
    intro current tc g b hg hb
    simp only [packLoop] at hg
    by_cases hflush : (budget < tc + (encode x).length && !current.isEmpty) = true
    · rw [if_pos hflush] at hg
      rcases List.mem_cons.mp hg with hgc | hg'
      · rw [hgc] at hb
        exact Or.inl hb
      · rcases ih [x] ((encode x).length) g b hg' hb with h1 | h1
        · right
          simp only [List.mem_singleton] at h1
          simp [h1]
        · exact Or.inr (List.mem_cons_of_mem x h1)
    · rw [if_neg hflush] at hg
      rcases ih (current ++ [x]) (tc + (encode x).length) g b hg hb with h1 | h1
      · rcases List.mem_append.mp h1 with h2 | h2
        · exact Or.inl h2
        · right
          simp only [List.mem_singleton] at h2
          simp [h2]
      · exact Or.inr (List.mem_cons_of_mem x h1)

/-- C2, counterexample.  With the fallback tokenizer and budget 2, the
complete fenced block `"```\na b c d\n```"` exceeds the budget and is torn by
the character-based fallback split of `chunk_text`: the first emitted chunk
is `"```\n"`, which contains exactly one fence marker. -/
theorem c2_counterexample :
    chunkText simpleEncode (chars "```\na b c d\n```") 2 =
      [chars "```\n", chars "a b ", chars "c d\n", chars "```"] ∧
    chars "```\n" ∈ chunkText simpleEncode (chars "```\na b c d\n```") 2 ∧
    markerCount (chars "```\n") = 1 := by
  refine ⟨by decide, ?_, by decide⟩
  rw [(by decide : chunkText simpleEncode (chars "```\na b c d\n```") 2 =
    [chars "```\n", chars "a b ", chars "c d\n", chars "```"])]
  simp

/-- C2 (amended): when every block produced by the splitter fits the token
budget (so the character-based fallback never fires) and every block
individually contains an even number of fence-marker lines, every chunk
emitted by `chunk_text` contains an even number of fence markers.  A block
exceeding the budget — even a complete fenced code region — is instead
character-split by `_split_long_block`, which can tear its fences and emit
chunks with an odd marker count. -/
theorem c2_fence_integrity (encode : List Char → List (List Char))
    (text : List Char) (budget : Nat)
    (hfit : ∀ b ∈ splitBlocks text, (encode b).length ≤ budget)
    (heven : ∀ b ∈ splitBlocks text, markerCount b % 2 = 0) :
    ∀ c ∈ chunkText encode text budget, markerCount c % 2 = 0 := by
  intro c hc
  rw [chunkText, chunkTextLoop_eq_pack encode budget _ hfit [] 0] at hc
  obtain ⟨g, hg, rfl⟩ := List.mem_map.mp hc
  apply markerCount_interNN
  intro b hb
  rcases packLoop_mem encode budget (splitBlocks text) [] 0 g b hg hb with h | h
  · simp at h
  · exact heven b h

/-- Witness for `c2_fence_integrity` on a document whose fenced block fits
the budget. -/
theorem c2_fence_integrity_witness :
    (∀ b ∈ splitBlocks (chars "Intro\n\n```python\nprint('hi')\n```\n\nConclusion"),
        (simpleEncode b).length ≤ 100) ∧
    (∀ b ∈ splitBlocks (chars "Intro\n\n```python\nprint('hi')\n```\n\nConclusion"),
        markerCount b % 2 = 0) ∧
    (∀ c ∈ chunkText simpleEncode
        (chars "Intro\n\n```python\nprint('hi')\n```\n\nConclusion") 100,
      markerCount c % 2 = 0) :=
  ⟨by decide, by decide, c2_fence_integrity _ _ _ (by decide) (by decide)⟩

/-- A per-character tokenizer: a legitimate instance of the tokenizer
interface `chunk_text` accepts, under which joining blocks with `"\n\n"`
costs two extra tokens per separator. -/
def charEncode (s : List Char) : List (List Char) := s.map (fun c => [c])

/-- C3, counterexample.  With a per-character tokenizer and budget 2, both
blocks of `"a\n\nb"` fit the budget (1 token each), yet the single chunk
`chunk_text` emits measures 4 tokens with the same tokenizer — the greedy
loop of `chunk_text` adds up per-block counts only and ignores the token
overhead of the `"\n\n"` separators it inserts. -/
theorem c3_counterexample :
    (∀ b ∈ splitBlocks (chars "a\n\nb"), (charEncode b).length ≤ 2) ∧
    chunkText charEncode (chars "a\n\nb") 2 = [chars "a\n\nb"] ∧
    2 < (charEncode (chars "a\n\nb")).length := by decide

/-- C3 (amended): for every tokenizer and budget, when every block fits the
budget, the chunks emitted by `chunk_text` are exactly the `"\n\n"`-joins of
the groups formed by the greedy packer, and each group's *sum of per-block
token counts* — the quantity the code actually tracks, which excludes the
`"\n\n"` separator overhead — is at most the budget (each group nonempty). -/
theorem c3_budget_respect (encode : List Char → List (List Char))
    (text : List Char) (budget : Nat)
    (hfit : ∀ b ∈ splitBlocks text, (encode b).length ≤ budget) :
    chunkText encode text budget = (packBlocks encode text budget).map interNN ∧
    ∀ g ∈ packBlocks encode text budget,
      groupTokens encode g ≤ budget ∧ g ≠ [] := by
  constructor
  · exact chunkTextLoop_eq_pack encode budget _ hfit [] 0
  · intro g hg
    exact packLoop_groups encode budget _ hfit [] 0
      (by simp [groupTokens]) (by simp) g hg

/-- Witness for `c3_budget_respect` at a concrete two-block text. -/
theorem c3_budget_respect_witness :
    (∀ b ∈ splitBlocks (chars "x y\n\nz w"), (simpleEncode b).length ≤ 4) ∧
    (chunkText simpleEncode (chars "x y\n\nz w") 4 =
        (packBlocks simpleEncode (chars "x y\n\nz w") 4).map interNN ∧
      ∀ g ∈ packBlocks simpleEncode (chars "x y\n\nz w") 4,
        groupTokens simpleEncode g ≤ 4 ∧ g ≠ []) :=
  ⟨by decide, c3_budget_respect _ _ _ (by decide)⟩

/-! ## The fallback token estimator (claim C8) -/

set_option maxRecDepth 4096 in
/-- C8, counterexample.  The fallback tokenizer `_Simple.encode` is plain
`text.split()` after FIM stripping: a 400-character unbroken word encodes to
a single token.  Its count does not grow with the word's length, it does not
treat punctuation as separate tokens, and it can therefore undercount a real
tokenizer. -/
theorem c8_counterexample :
    (simpleEncode (List.replicate 400 'a')).length = 1 ∧
    (simpleEncode (chars "a.b,c;d")).length = 1 := by
  constructor <;> decide

theorem wordsGo_nospace :
    ∀ (s : List Char) (acc : List Char), (∀ c ∈ s, isSpace c = false) →
      acc ≠ [] ∨ s ≠ [] → (wordsGo acc s).length = 1 := by
  intro s
  induction s with
  | nil =>
    intro acc _ hd
    have hacc : acc ≠ [] := by
      rcases hd with h | h
      · exact h
      · exact absurd rfl h
    simp only [wordsGo]
    rw [if_neg (by simpa [List.isEmpty_iff] using hacc)]
    simp
  | cons c rest ih =>
    intro acc hns _
    have hc : isSpace c = false := hns c (by simp)
    simp only [wordsGo, hc, Bool.false_eq_true, if_false]
    exact ih (c :: acc) (fun x hx => hns x (by simp [hx])) (Or.inl (by simp))

/-- C8 (amended): the fallback estimator splits on whitespace only.  Any
nonempty FIM-free word containing no whitespace counts as exactly one token,
regardless of its character length, so the estimate can undercount a real
tokenizer on long unbroken words. -/
theorem c8_fallback_tokenizer (w : List Char) (hne : w ≠ [])
    (hns : ∀ c ∈ w, isSpace c = false) (hfim : stripFim w = w) :
    (simpleEncode w).length = 1 := by
  rw [simpleEncode, hfim, wordsOf]
  exact wordsGo_nospace w [] hns (Or.inr hne)

/-- Witness for `c8_fallback_tokenizer` at a 50-character word. -/
theorem c8_fallback_tokenizer_witness :
    (List.replicate 50 'x' ≠ [] ∧
      (∀ c ∈ List.replicate 50 'x', isSpace c = false) ∧
      stripFim (List.replicate 50 'x') = List.replicate 50 'x') ∧
    (simpleEncode (List.replicate 50 'x')).length = 1 :=
  ⟨⟨by decide, by decide, by decide⟩,
    c8_fallback_tokenizer _ (by decide) (by decide) (by decide)⟩

/-! ## `ResponseCache` (`cache.py`) (claim C6) -/

/-- A stored value: a string (LLM response) or an object (the progress map),
matching what `cache.py` writes into its JSON file. -/
inductive CVal
  | str (s : String)
  | obj (m : List (String × CVal))

/-- Python dict assignment `d[k] = v`: overwrite in place, else append. -/
def dictSet : List (String × CVal) → String → CVal → List (String × CVal)
  | [], k, v => [(k, v)]
  | (k', v') :: rest, k, v =>
    if k' = k then (k', v) :: rest else (k', v') :: dictSet rest k v

/-- Python `d.get(k)`. -/
def dictGet : List (String × CVal) → String → Option CVal
  | [], _ => none
  | (k', v') :: rest, k => if k' = k then some v' else dictGet rest k

/-- A `ResponseCache` instance: the in-memory `_data` dict plus the on-disk
file.  `json.dumps` followed by `json.loads` of a string-keyed map of
strings/objects round-trips exactly, so the file is modelled as holding the
serialized dict itself; `none` stands for a missing or unparsable file. -/
structure CacheState where
  data : List (String × CVal)
  file : Option (List (String × CVal))

/-- `ResponseCache._save`: rewrite the whole file from `_data`. -/
def cacheSave (c : CacheState) : CacheState := { c with file := some c.data }

/-- `ResponseCache.__init__`: read the file if it exists (an unreadable file
yields `{}`), then `self._data.setdefault("__progress__", {})`. -/
def cacheInit (file : Option (List (String × CVal))) : CacheState :=
  let d0 := match file with
    | some d => d
    | none => []
  let d1 := match dictGet d0 "__progress__" with
    | some _ => d0
    | none => dictSet d0 "__progress__" (CVal.obj [])
  { data := d1, file := file }

/-- `ResponseCache.get`. -/
def cacheGet (c : CacheState) (k : String) : Option CVal := dictGet c.data k

/-- `ResponseCache.set`: store the string and persist immediately. -/
def cacheSet (c : CacheState) (k : String) (v : String) : CacheState :=
  cacheSave { c with data := dictSet c.data k (CVal.str v) }

/-- `ResponseCache.set_progress_entry`: `setdefault("__progress__", {})`,
record the payload under `path`, persist.  Python raises a `TypeError` when
the progress entry is not a dict; that fallible path returns `none`. -/
def cacheSetProgress (c : CacheState) (path : String) (payload : CVal) :
    Option CacheState :=
  match dictGet c.data "__progress__" with
  | some (CVal.obj m) =>
    some (cacheSave
      { c with data := dictSet c.data "__progress__" (CVal.obj (dictSet m path payload)) })
  | some _ => none
  | none =>
    some (cacheSave
      { c with data := dictSet c.data "__progress__" (CVal.obj (dictSet [] path payload)) })

/-- `ResponseCache.make_key`: `f"{file_path}:{sha256(content).hexdigest()}"`,
with the SHA-256 hex digest of the external `hashlib` library abstracted as a
function parameter. -/
def makeKey (digest : String → String) (filePath : String)
    (content : Option String) : String :=
  filePath ++ ":" ++ digest (match content with
    | none => "<None>"
    | some c => c)

theorem dictGet_set_self (d : List (String × CVal)) (k : String) (v : CVal) :
    dictGet (dictSet d k v) k = some v := by
  induction d with
  | nil => simp [dictSet, dictGet]
  | cons p rest ih =>
    obtain ⟨k', v'⟩ := p
    by_cases h : k' = k
    · simp [dictSet, dictGet, h]
    · simp [dictSet, dictGet, h, ih]

theorem dictGet_set_other (d : List (String × CVal)) {k' k : String}
    (h : k' ≠ k) (v : CVal) : dictGet (dictSet d k' v) k = dictGet d k := by
  induction d with
  | nil => simp [dictSet, dictGet, h]
  | cons p rest ih =>
    obtain ⟨k0, v0⟩ := p
    by_cases h0 : k0 = k'
    · subst h0
      simp [dictSet, dictGet, h]
    · simp only [dictSet, if_neg h0]
      by_cases h1 : k0 = k
      · simp [dictGet, h1]
      · simp [dictGet, h1, ih]

/-- A fingerprint built by `make_key` always contains a `':'`, so it can
never equal the reserved progress key. -/
theorem makeKey_ne_progress (digest : String → String) (filePath : String)
    (content : Option String) :
    makeKey digest filePath content ≠ "__progress__" := by
  intro h
  have hmem : ':' ∈ (makeKey digest filePath content).toList := by
    simp [makeKey, String.toList, String.data_append]
  rw [h] at hmem
  exact absurd hmem (by decide)

/-- C6: a value stored under a fingerprint by `set` is returned by `get` on
the same instance; an intervening `set` under a different key and an
intervening `set_progress_entry` leave it unchanged; and a new
`ResponseCache` constructed over the same file still returns it. -/
theorem c6_cache_roundtrip (c : CacheState) (digest : String → String)
    (fp : String) (content : Option String) (v v2 k2 path : String)
    (payload : CVal) (hk2 : k2 ≠ makeKey digest fp content) (c3 : CacheState)
    (hp : cacheSetProgress
        (cacheSet (cacheSet c (makeKey digest fp content) v) k2 v2)
        path payload = some c3) :
    cacheGet (cacheSet c (makeKey digest fp content) v)
        (makeKey digest fp content) = some (CVal.str v) ∧
    cacheGet c3 (makeKey digest fp content) = some (CVal.str v) ∧
    cacheGet (cacheInit c3.file) (makeKey digest fp content) =
      some (CVal.str v) := by
  have hkp : ("__progress__" : String) ≠ makeKey digest fp content :=
    fun h => makeKey_ne_progress digest fp content h.symm
  have hget1 : cacheGet (cacheSet c (makeKey digest fp content) v)
      (makeKey digest fp content) = some (CVal.str v) := by
    simp [cacheGet, cacheSet, cacheSave, dictGet_set_self]
  have hget2 : cacheGet (cacheSet (cacheSet c (makeKey digest fp content) v) k2 v2)
      (makeKey digest fp content) = some (CVal.str v) := by
    show dictGet (dictSet _ k2 (CVal.str v2)) _ = _
    rw [dictGet_set_other _ hk2]
    exact hget1
  have hc3 : ∃ X, c3 = cacheSave
      { cacheSet (cacheSet c (makeKey digest fp content) v) k2 v2 with
        data := dictSet
          (cacheSet (cacheSet c (makeKey digest fp content) v) k2 v2).data
          "__progress__" X } := by
    unfold cacheSetProgress at hp
    cases hprog : dictGet
        (cacheSet (cacheSet c (makeKey digest fp content) v) k2 v2).data
        "__progress__" with
    | none =>
      rw [hprog] at hp
      simp only at hp
      exact ⟨_, (Option.some.inj hp).symm⟩
    | some val =>
      cases val with
      | obj m =>
        rw [hprog] at hp
        simp only at hp
        exact ⟨_, (Option.some.inj hp).symm⟩
      | str s =>
        rw [hprog] at hp
        simp at hp
  obtain ⟨X, rfl⟩ := hc3
  refine ⟨hget1, ?_, ?_⟩
  · show dictGet (dictSet _ "__progress__" X) _ = _
    rw [dictGet_set_other _ hkp]
    exact hget2
  · show cacheGet (cacheInit (some _)) _ = _
    simp only [cacheInit, cacheGet]
    rw [dictGet_set_self]
    simp only
    show dictGet (dictSet _ "__progress__" X) _ = _
    rw [dictGet_set_other _ hkp]
    exact hget2

/-- Witness for `c6_cache_roundtrip` at concrete keys and values. -/
theorem c6_cache_roundtrip_witness :
    ("b:h" ≠ makeKey (fun _ => "h") "a" none) ∧
    (cacheGet (cacheSet (cacheInit none) (makeKey (fun _ => "h") "a" none) "S1")
        (makeKey (fun _ => "h") "a" none) = some (CVal.str "S1") ∧
      cacheGet
        { data := [("__progress__", CVal.obj [("m", CVal.str "done")]),
            ("a:h", CVal.str "S1"), ("b:h", CVal.str "S2")],
          file := some [("__progress__", CVal.obj [("m", CVal.str "done")]),
            ("a:h", CVal.str "S1"), ("b:h", CVal.str "S2")] }
        (makeKey (fun _ => "h") "a" none) = some (CVal.str "S1") ∧
      cacheGet (cacheInit (CacheState.file
        { data := [("__progress__", CVal.obj [("m", CVal.str "done")]),
            ("a:h", CVal.str "S1"), ("b:h", CVal.str "S2")],
          file := some [("__progress__", CVal.obj [("m", CVal.str "done")]),
            ("a:h", CVal.str "S1"), ("b:h", CVal.str "S2")] }))
        (makeKey (fun _ => "h") "a" none) = some (CVal.str "S1")) :=
  ⟨by decide,
    c6_cache_roundtrip (cacheInit none) (fun _ => "h") "a" none "S1" "S2" "b:h"
      "m" (CVal.str "done") (by decide)
      { data := [("__progress__", CVal.obj [("m", CVal.str "done")]),
          ("a:h", CVal.str "S1"), ("b:h", CVal.str "S2")],
        file := some [("__progress__", CVal.obj [("m", CVal.str "done")]),
          ("a:h", CVal.str "S1"), ("b:h", CVal.str "S2")] }
      rfl⟩

/-! ## `sanitize_summary` (`llm_client.py`) (claim C10) -/

/-- Worker for the FIM removal in `sanitize_summary`: like `stripFimGo` but
also recognising the three `fm_` misspellings (whose remainders after `'<'`
are 12 characters long). -/
def stripFim6Go : Nat → List Char → List Char
  | _, [] => []
  | 0, l => l
  | fuel + 1, '<' :: rest =>
    if (chars "|fim_prefix|>").isPrefixOf rest ||
        (chars "|fim_middle|>").isPrefixOf rest ||
        (chars "|fim_suffix|>").isPrefixOf rest then
      stripFim6Go fuel (rest.drop 13)
    else if (chars "|fm_prefix|>").isPrefixOf rest ||
        (chars "|fm_middle|>").isPrefixOf rest ||
        (chars "|fm_suffix|>").isPrefixOf rest then
      stripFim6Go fuel (rest.drop 12)
    else '<' :: stripFim6Go fuel rest
  | fuel + 1, c :: rest => c :: stripFim6Go fuel rest

/-- `re.sub(r"<\|f(?:im|m)_(?:prefix|middle|suffix)\|>", "", text)` in
`sanitize_summary`: removes the six FIM token spellings. -/
def stripFim6 (s : List Char) : List Char := stripFim6Go s.length s

/-- Python `str.lower()` (ASCII). -/
def lowerStr (s : List Char) : List Char := s.map Char.toLower

/-- `SYSTEM_PROMPT` from `llm_client.py`. -/
def systemPromptStr : String :=
  "You are not an assistant. You are a documentation engine that generates factual summaries of code files. Do not help the user. Do not refer to yourself. Do not explain what you are doing. Only describe what the code defines or implements."

/-- `_COMMON_RULES` from `llm_client.py`. -/
def commonRules : String :=
  "- Do not refer to yourself, the summary, or the response.\n- Do not include instructions, usage advice, or disclaimers.\n- Do not say what is or isn't included in the code.\n- Do not explain how to run it.\n- Do not use phrases like \"this script\", \"the code above\", or \"you can\".\n- Just describe what is implemented.\n\n"

/-- `README_PROMPT` from `llm_client.py`. -/
def readmePromptStr : String :=
  "You are a documentation engine.\n\nBelow is Markdown content from a README or documentation file. Use this to enrich the overall project summary. Focus on describing the code’s purpose, features, and architecture.\n\n- Do not include setup or installation steps\n- Do not refer to the Markdown file itself\n- Avoid list formatting or markdown\n- Output 2–3 sentences suitable for use in technical documentation\n- Do not speculate. Use only the provided content."

/-- The values of `PROMPT_TEMPLATES` with `text=""` substituted, in the
dict's insertion order (module, class, function, readme, project, docstring,
user_manual) — the strings `PROMPT_LINE_SET` is computed from. -/
def promptTemplatesEmpty : List String :=
  [ "Summarize the module below.\n\n" ++ commonRules ++ "Code:\n```python\n\n```",
    "Summarize the class below.\n\n" ++ commonRules ++ "Code:\n```python\n\n```",
    "Summarize the function below.\n\n" ++ commonRules ++ "Code:\n```python\n\n```",
    readmePromptStr ++ "\n",
    "You are a documentation generator.\n\nWrite a short project summary using only the information provided below.\nDo not make assumptions. Do not explain how to run the code.\nDo not mention imports or visualization libraries unless explicitly listed.\nDo not say \"the script starts by\" or \"you can\".\nAvoid assistant-like phrasing. Just summarize what the code does.\n\n",
    "",
    "Given the following context and documentation files, generate a clear, detailed User’s Manual for a technically literate audience. Cover: purpose, problem it solves, how to run it, input/output specs, and examples if possible.\n\n" ]

/-- `PROMPT_LINE_SET`: the stripped, lowered, nonempty lines of every
formatted template (membership is all that matters, so a list models the
Python set). -/
def promptLineSet : List (List Char) :=
  promptTemplatesEmpty.flatMap (fun t =>
    (splitlines (chars t)).filterMap (fun l =>
      let s := strip l
      if s.isEmpty then none else some (lowerStr s)))

/-- `SYSTEM_PROMPT_LINES`. -/
def systemPromptLines : List (List Char) :=
  (splitlines (chars systemPromptStr)).filterMap (fun l =>
    let s := strip l
    if s.isEmpty then none else some (lowerStr s))

/-- `BAD_START_PHRASES` from `sanitize_summary`. -/
def badStartPhrases : List (List Char) :=
  [chars "summarize", chars "you are", chars "you can", chars "note that",
   chars "the code above", chars "this script", chars "here's how",
   chars "to run this", chars "let's", chars "for example", chars "you might",
   chars "we can", chars "should you", chars "if you want", chars "the summary",
   chars "this explanation", chars "this output", chars "this description",
   chars "this response"]

/-- `BAD_CONTAINS` from `sanitize_summary`. -/
def badContains : List (List Char) :=
  [chars "documentation engine", chars "summarize the following",
   chars "as an ai language model", chars "as a language model",
   chars "as an ai model", chars "i am an ai", chars "i'm an ai"]

/-- Python `sub in s` substring test. -/
def isSubstring (p : List Char) : List Char → Bool
  | [] => p.isEmpty
  | c :: rest => p.isPrefixOf (c :: rest) || isSubstring p rest

/-- Python regex `\w` on ASCII. -/
def isWordChar (c : Char) : Bool := c.isAlphanum || c = '_'

/-- `re.match(r"^this (script|code|file) (does|is)\b", line_lower)`. -/
def matchThisScript (l : List Char) : Bool :=
  [chars "this script does", chars "this script is", chars "this code does",
   chars "this code is", chars "this file does", chars "this file is"].any
    (fun p => p.isPrefixOf l &&
      (match (l.drop p.length).head? with
       | none => true
       | some c => !(isWordChar c)))

/-- The per-line filter of `sanitize_summary`: drop template echoes, bullet
lines, bad starts, bad substrings and self-referential lines; keep the
stripped line otherwise. -/
def sanitizeLine (line : List Char) : Option (List Char) :=
  let stripped := strip line
  let low := lowerStr stripped
  if promptLineSet.contains low || systemPromptLines.contains low then none
  else if stripped.head? = some '-' || stripped.head? = some '*' then none
  else if badStartPhrases.any (fun p => p.isPrefixOf low) then none
  else if badContains.any (fun p => isSubstring p low) then none
  else if isSubstring (chars "this summary") low ||
      isSubstring (chars "this output") low ||
      isSubstring (chars "this response") low ||
      isSubstring (chars "does not include") low ||
      isSubstring (chars "avoids addressing") low then none
  else if matchThisScript low then none
  else some stripped

/-- `sanitize_summary` (`llm_client.py`). -/
def sanitizeSummary (text : List Char) : List Char :=
  if strip text = chars "project summary" then chars "It prints."
  else strip (interNL ((splitlines (strip (stripFim6 text))).filterMap sanitizeLine))

/-- The tail of `LLMClient.summarize` (`llm_client.py`, line 272): once the
HTTP transport (external `requests` machinery) has produced the model's raw
message `content`, the method returns `sanitize_summary(content)`. -/
def summarizeLLM (content : List Char) : List Char := sanitizeSummary content

/-- C10: any input whose whitespace-stripped text is exactly
`"project summary"` is mapped by `sanitize_summary` to the literal
`"It prints."` — and since `LLMClient.summarize` pipes every model response
through `sanitize_summary`, a model output consisting of exactly that phrase
is silently replaced. -/
theorem c10_project_summary_sentinel (t : List Char)
    (h : strip t = chars "project summary") :
    sanitizeSummary t = chars "It prints." ∧
    summarizeLLM t = chars "It prints." := by
  have hs : sanitizeSummary t = chars "It prints." := by
    unfold sanitizeSummary
    rw [h]
    simp
  exact ⟨hs, hs⟩

/-- Witness for `c10_project_summary_sentinel`. -/
theorem c10_project_summary_sentinel_witness :
    strip (chars "  project summary \n") = chars "project summary" ∧
    (sanitizeSummary (chars "  project summary \n") = chars "It prints." ∧
      summarizeLLM (chars "  project summary \n") = chars "It prints.") :=
  ⟨by decide, c10_project_summary_sentinel _ (by decide)⟩

/-! ## Structural Chunker (claim C7) -/

/-- Modelled from the spec: the structural chunker
(`_chunk_module_by_structure` / `_summarize_module_chunked`) is referenced by
`tests/test_docgenerator.py` but absent from the source tree.  Following §3
of the spec, a `StructuralUnit` is a node in the declaration tree carrying
its own source text, an ordering key (declaration order), and its nested
sub-units. -/
inductive StructuralUnit where
  | mk (source : List Char) (order : Nat) (children : List StructuralUnit)

def StructuralUnit.source : StructuralUnit → List Char
  | .mk s _ _ => s

def StructuralUnit.order : StructuralUnit → Nat
  | .mk _ o _ => o

def StructuralUnit.children : StructuralUnit → List StructuralUnit
  | .mk _ _ cs => cs

mutual
/-- Modelled from the spec: `packStructural(unit, budget)` (§4.4).  If
`unit.source` fits the budget it is emitted as one atomic chunk; otherwise
the chunker recurses into the immediate children in declaration order and
concatenates their chunk lists; a leaf that still exceeds the budget is
character-split exactly as §4.3's fallback (`_split_long_block`). -/
def packStructural (encode : List Char → List (List Char)) (budget : Nat) :
    StructuralUnit → List (List Char)
  | .mk src _ children =>
    if (encode src).length ≤ budget then [src]
    else if children.isEmpty then splitLongBlock encode src budget
    else packStructuralList encode budget children

/-- Concatenation of the children's chunk lists, in declaration order. -/
def packStructuralList (encode : List Char → List (List Char)) (budget : Nat) :
    List StructuralUnit → List (List Char)
  | [] => []
  | u :: us => packStructural encode budget u ++ packStructuralList encode budget us
end

theorem packStructuralList_fits (encode : List Char → List (List Char))
    (budget : Nat) :
    ∀ (cs : List StructuralUnit),
      (∀ c ∈ cs, (encode c.source).length ≤ budget) →
      packStructuralList encode budget cs = cs.map StructuralUnit.source := by
  intro cs
  induction cs with
  | nil => intro _; rfl
  | cons u us ih =>
    intro hfit
    have hu : (encode u.source).length ≤ budget := hfit u (by simp)
    simp only [packStructuralList]
    rw [ih (fun c hc => hfit c (by simp [hc]))]
    cases u with
    | mk src ord children =>
      simp only [packStructural, StructuralUnit.source] at hu ⊢
      rw [if_pos hu]
      simp [StructuralUnit.source]

/-- C7 (spec-modelled): a `StructuralUnit` whose source fits the token budget
is emitted as exactly one chunk equal to its full source; a unit exceeding
the budget whose immediate sub-units each fit is emitted as exactly the
sub-units' sources in declaration order, with no cross-boundary splitting. -/
theorem c7_structural_atomicity (encode : List Char → List (List Char))
    (budget : Nat) (u v : StructuralUnit)
    (hu : (encode u.source).length ≤ budget)
    (hv : budget < (encode v.source).length) (hvc : v.children ≠ [])
    (hfit : ∀ c ∈ v.children, (encode c.source).length ≤ budget) :
    packStructural encode budget u = [u.source] ∧
    packStructural encode budget v = v.children.map StructuralUnit.source := by
  constructor
  · cases u with
    | mk src ord children =>
      simp only [StructuralUnit.source] at hu ⊢
      simp [packStructural, if_pos hu]
  · cases v with
    | mk src ord children =>
      simp only [StructuralUnit.source, StructuralUnit.children] at hv hvc hfit ⊢
      have hns : ¬ (encode src).length ≤ budget := not_le.mpr hv
      simp only [packStructural, if_neg hns]
      rw [if_neg (by simpa [List.isEmpty_iff] using hvc)]
      exact packStructuralList_fits encode budget children hfit

/-- Witness for `c7_structural_atomicity`: a small function that fits and a
two-method class whose methods fit individually. -/
theorem c7_structural_atomicity_witness :
    ((simpleEncode (StructuralUnit.mk (chars "def f(): pass") 0 []).source).length ≤ 3 ∧
      3 < (simpleEncode (StructuralUnit.mk (chars "def a():\n x\n\ndef b():\n y") 0
        [StructuralUnit.mk (chars "def a():\n x") 0 [],
         StructuralUnit.mk (chars "def b():\n y") 1 []]).source).length) ∧
    (packStructural simpleEncode 3 (StructuralUnit.mk (chars "def f(): pass") 0 []) =
        [(StructuralUnit.mk (chars "def f(): pass") 0 []).source] ∧
      packStructural simpleEncode 3 (StructuralUnit.mk (chars "def a():\n x\n\ndef b():\n y") 0
          [StructuralUnit.mk (chars "def a():\n x") 0 [],
           StructuralUnit.mk (chars "def b():\n y") 1 []]) =
        (StructuralUnit.mk (chars "def a():\n x\n\ndef b():\n y") 0
          [StructuralUnit.mk (chars "def a():\n x") 0 [],
           StructuralUnit.mk (chars "def b():\n y") 1 []]).children.map
          StructuralUnit.source) :=
  ⟨⟨by decide, by decide⟩,
    c7_structural_atomicity simpleEncode 3
      (StructuralUnit.mk (chars "def f(): pass") 0 [])
      (StructuralUnit.mk (chars "def a():\n x\n\ndef b():\n y") 0
        [StructuralUnit.mk (chars "def a():\n x") 0 [],
         StructuralUnit.mk (chars "def b():\n y") 1 []])
      (by decide) (by decide) (by simp [StructuralUnit.children]) (by decide)⟩

/-! ## `map_evidence_to_sections` (`explaincode.py`) (claim C9) -/

/-- A `pathlib.Path` for the evidence mapper: its `parts` (the file name is
the last part). -/
structure PathM where
  parts : List String
deriving DecidableEq

def pathName (p : PathM) : String := p.parts.getLastD ""

/-- `skip_dirs = {"tests", "examples", "fixtures"}` intersected with the
lowered path parts. -/
def inExcludedDir (p : PathM) : Bool :=
  p.parts.any (fun q =>
    lowerStr q.toList = chars "tests" || lowerStr q.toList = chars "examples" ||
      lowerStr q.toList = chars "fixtures")

/-- `SECTION_KEYWORDS` from `explaincode.py`, in dict insertion order. -/
def sectionKeywords : List (String × List (List Char)) :=
  [ ("Overview", [chars "overview"]),
    ("Purpose & Problem Solving",
      [chars "purpose", chars "problem", chars "objective", chars "goal"]),
    ("How to Run",
      [chars "how to run", chars "usage", chars "running", chars "execution",
       chars "run"]),
    ("Inputs", [chars "input", chars "inputs"]),
    ("Outputs", [chars "output", chars "outputs"]),
    ("System Requirements",
      [chars "system requirements", chars "requirements", chars "dependencies"]),
    ("Examples", [chars "example", chars "examples"]) ]

def sectionNames : List String := sectionKeywords.map (fun sk => sk.1)

/-- Match of the keyword at the head of `s`, with the trailing `\b` of
`re.search(rf"\b{k}\b", …)`: the next character must not be a word
character. -/
def kwMatchAt (k s : List Char) : Bool :=
  k.isPrefixOf s &&
    (match (s.drop k.length).head? with
     | none => true
     | some c => !(isWordChar c))

/-- Scan for `\b k \b` (keywords start and end with word characters): a
position is a boundary when the previous character is not a word character. -/
def kwSearchGo (k : List Char) : Bool → List Char → Bool
  | _, [] => false
  | prevW, c :: rest =>
    (!prevW && kwMatchAt k (c :: rest)) || kwSearchGo k (isWordChar c) rest

/-- `re.search(rf"\b{re.escape(k)}\b", lowered)`. -/
def kwSearch (k s : List Char) : Bool := kwSearchGo k false s

/-- The first section (in `SECTION_KEYWORDS` order) one of whose keywords
matches the lowered line — the inner `for section, keywords` loop with its
trailing `break`. -/
def firstMatchingSection (lowered : List Char) : Option String :=
  (sectionKeywords.find? (fun sk => sk.2.any (fun k => kwSearch k lowered))).map
    (fun sk => sk.1)

/-- `re.match(r"\s*<h[1-6]", nxt)`. -/
def isHtmlHeading (l : List Char) : Bool :=
  match l.dropWhile (fun c => isSpace c) with
  | '<' :: 'h' :: d :: _ => decide ('1' ≤ d) && decide (d ≤ '6')
  | _ => false

/-- The snippet-continuation loop: collect up to `maxLines` following lines,
stopping at a blank line or a (Markdown or HTML) heading; lines are
stripped as collected. -/
def snippetCont : Nat → List (List Char) → List (List Char)
  | 0, _ => []
  | _, [] => []
  | n + 1, nxt :: rest =>
    if isBlank nxt then []
    else if isHeading nxt || isHtmlHeading nxt then []
    else strip nxt :: snippetCont n rest

/-- Build the snippet for a matched line: the stripped line, plus the
space-joined continuation lines when any (`MAX_SNIPPET_LINES = 20`;
`max_lines = 0` for excluded directories). -/
def buildSnippet (line : List Char) (rest : List (List Char)) (excl : Bool) :
    List Char :=
  let maxL := if excl then 0 else 20
  let cont := snippetCont maxL rest
  let snip := strip line
  if cont.isEmpty then snip else snip ++ '\n' :: strip (interSP cont)

/-- Each line paired with the lines that follow it (`lines[j]`, `j > idx`). -/
def withTails {α : Type} : List α → List (α × List α)
  | [] => []
  | x :: xs => (x, xs) :: withTails xs

/-- The candidate list `section_map[sec]` built by the collection loop of
`map_evidence_to_sections`, in document/line order: each line contributes to
the first matching section only; an empty snippet is dropped; an
excluded-directory file never contributes to "Overview". -/
def candidateEntries (docs : List (PathM × List Char)) (sec : String) :
    List (PathM × List Char) :=
  docs.flatMap (fun d =>
    let excl := inExcludedDir d.1
    (withTails (splitlines d.2)).filterMap (fun lr =>
      match firstMatchingSection (lowerStr (strip lr.1)) with
      | some s =>
        if s = sec then
          let snip := buildSnippet lr.1 lr.2 excl
          if snip.isEmpty then none
          else if sec = "Overview" && excl then none
          else some (d.1, snip)
        else none
      | none => none))

def isReadmeFile (p : PathM) : Bool := lowerStr (pathName p).toList = chars "readme.md"

def inDocsDir (p : PathM) : Bool :=
  p.parts.any (fun q => lowerStr q.toList = chars "docs")

/-- The `_key` priority of the Overview sort: README or `docs`-directory
origin first. -/
def ovPriority (p : PathM) : Nat := if isReadmeFile p || inDocsDir p then 0 else 1

/-- Orders entries like Python's stable ascending sort on
`(priority, -len(snippet))`. -/
def ovLe (a b : PathM × List Char) : Bool :=
  decide (ovPriority a.1 < ovPriority b.1) ||
    (decide (ovPriority a.1 = ovPriority b.1) && decide (b.2.length ≤ a.2.length))

/-- Orders entries like Python's stable `sort(key=len, reverse=True)`. -/
def lenDescLe (a b : PathM × List Char) : Bool := decide (b.2.length ≤ a.2.length)

/-- One section's final ranked list: stable-sort the candidates (Overview by
`(priority, -len)`, every other section by descending length) and keep the
top 10. -/
def mapEvidenceSection (docs : List (PathM × List Char)) (sec : String) :
    List (PathM × List Char) :=
  let entries := candidateEntries docs sec
  (if sec = "Overview" then entries.mergeSort ovLe
   else entries.mergeSort lenDescLe).take 10

/-- `file_map`: the set of sections a file contributed to. -/
def fileMapSections (docs : List (PathM × List Char)) (p : PathM) : List String :=
  sectionNames.filter (fun sec => (candidateEntries docs sec).any (fun e => e.1 = p))

theorem candidateEntries_overview_excluded
    (docs : List (PathM × List Char)) :
    ∀ e ∈ candidateEntries docs "Overview", inExcludedDir e.1 = false := by
  intro e he
  simp only [candidateEntries, List.mem_flatMap, List.mem_filterMap] at he
  obtain ⟨d, _hd, lr, _hlr, heq⟩ := he
  rcases hms : firstMatchingSection (lowerStr (strip lr.1)) with _ | s
  · rw [hms] at heq
    simp at heq
  · rw [hms] at heq
    simp only at heq
    by_cases hsec : s = "Overview"
    · rw [if_pos hsec] at heq
      by_cases hempty : (buildSnippet lr.1 lr.2 (inExcludedDir d.1)).isEmpty = true
      · rw [if_pos hempty] at heq
        simp at heq
      · rw [if_neg hempty] at heq
        by_cases hexc : inExcludedDir d.1 = true
        · rw [hexc] at heq
          simp at heq
        · have hexc' : inExcludedDir d.1 = false := by simpa using hexc
          rw [hexc'] at heq
          simp only [Bool.and_false, Bool.false_eq_true, if_false,
            Option.some.injEq] at heq
          rw [← heq]
          exact hexc'
    · rw [if_neg hsec] at heq
      simp at heq

theorem ovLe_trans (a b c : PathM × List Char) (hab : ovLe a b = true)
    (hbc : ovLe b c = true) : ovLe a c = true := by
  simp only [ovLe, Bool.or_eq_true, Bool.and_eq_true, decide_eq_true_eq] at hab hbc ⊢
  omega

theorem ovLe_total (a b : PathM × List Char) : (ovLe a b || ovLe b a) = true := by
  simp only [ovLe, Bool.or_eq_true, Bool.and_eq_true, decide_eq_true_eq]
  omega

theorem lenDescLe_trans (a b c : PathM × List Char) (hab : lenDescLe a b = true)
    (hbc : lenDescLe b c = true) : lenDescLe a c = true := by
  simp only [lenDescLe, decide_eq_true_eq] at hab hbc ⊢
  omega

theorem lenDescLe_total (a b : PathM × List Char) :
    (lenDescLe a b || lenDescLe b a) = true := by
  simp only [lenDescLe, Bool.or_eq_true, decide_eq_true_eq]
  omega

/-- A documentation map with one file in a `tests` directory whose text
matches both the "Overview" and the "Inputs" keywords. -/
def demoDocs : List (PathM × List Char) :=
  [(⟨["tests", "x.md"]⟩, chars "overview\ninputs: foo")]

/-- A README-only documentation map contributing to "Overview". -/
def demoDocsReadme : List (PathM × List Char) :=
  [(⟨["README.md"]⟩, chars "overview\ninfo")]

/-- C9: `map_evidence_to_sections` (i) never places an entry from a
tests/examples/fixtures directory in the "Overview" section, (ii) keeps at
most 10 entries per section, (iii) ranks "Overview" entries by
README/docs-directory priority with longer snippets breaking ties, (iv)
ranks every other section by descending snippet length, and (v) — on a
concrete tests-directory file — still admits its snippet into "Inputs" while
excluding it from "Overview". -/
theorem c9_evidence_mapper :
    (∀ (docs : List (PathM × List Char)) (e : PathM × List Char),
        e ∈ mapEvidenceSection docs "Overview" → inExcludedDir e.1 = false) ∧
    (∀ (docs : List (PathM × List Char)) (sec : String),
        (mapEvidenceSection docs sec).length ≤ 10) ∧
    (∀ docs : List (PathM × List Char),
        (mapEvidenceSection docs "Overview").Pairwise
          (fun a b => ovLe a b = true)) ∧
    (∀ (docs : List (PathM × List Char)) (sec : String), sec ≠ "Overview" →
        (mapEvidenceSection docs sec).Pairwise
          (fun a b => lenDescLe a b = true)) ∧
    (mapEvidenceSection demoDocs "Inputs" =
        [(⟨["tests", "x.md"]⟩, chars "inputs: foo")] ∧
      mapEvidenceSection demoDocs "Overview" = []) := by
  refine ⟨?_, ?_, ?_, ?_, ?_, ?_⟩
  · intro docs e he
    simp only [mapEvidenceSection] at he
    rw [if_pos trivial] at he
    exact candidateEntries_overview_excluded docs e
      (List.mem_mergeSort.mp (List.mem_of_mem_take he))
  · intro docs sec
    have hlen : ∀ (l : List (PathM × List Char)), (l.take 10).length ≤ 10 := by
      intro l
      rw [List.length_take]
      omega
    simp only [mapEvidenceSection]
    split
    · exact hlen _
    · exact hlen _
  · intro docs
    simp only [mapEvidenceSection]
    rw [if_pos trivial]
    exact List.Pairwise.sublist (List.take_sublist _ _)
      (List.sorted_mergeSort ovLe_trans ovLe_total _)
  · intro docs sec hsec
    simp only [mapEvidenceSection]
    rw [if_neg hsec]
    exact List.Pairwise.sublist (List.take_sublist _ _)
      (List.sorted_mergeSort lenDescLe_trans lenDescLe_total _)
  · simp only [mapEvidenceSection]
    rw [if_neg (by decide : ¬("Inputs" = "Overview"))]
    rw [(by decide : candidateEntries demoDocs "Inputs" =
      [(⟨["tests", "x.md"]⟩, chars "inputs: foo")])]
    rw [List.mergeSort_of_sorted (by simp)]
    rfl
  · simp only [mapEvidenceSection]
    rw [if_pos trivial]
    rw [(by decide : candidateEntries demoDocs "Overview" = [])]
    rw [List.mergeSort_of_sorted (by simp)]
    rfl

/-- Witness for `c9_evidence_mapper`, exercising each conditional part at
concrete inputs. -/
theorem c9_evidence_mapper_witness :
    (mapEvidenceSection demoDocs "Inputs").length ≤ 10 ∧
    (mapEvidenceSection demoDocs "Inputs").Pairwise
      (fun a b => lenDescLe a b = true) ∧
    inExcludedDir (PathM.mk ["README.md"]) = false :=
  ⟨c9_evidence_mapper.2.1 demoDocs "Inputs",
   c9_evidence_mapper.2.2.2.1 demoDocs "Inputs" (by decide),
   c9_evidence_mapper.1 demoDocsReadme (⟨["README.md"]⟩, chars "overview\ninfo")
     (by
       simp only [mapEvidenceSection]
       rw [if_pos trivial]
       rw [(by decide : candidateEntries demoDocsReadme "Overview" =
         [(⟨["README.md"]⟩, chars "overview\ninfo")])]
       rw [List.mergeSort_of_sorted (by simp)]
       simp)⟩

/-! ## `_split_text` and `_summarize_manual` (`manual_utils.py`) (claims C4, C5) -/

/-- Worker for `splitPara`: `acc` is the current (reversed) segment,
`pending` the number of `'\n'` read but not yet resolved.  A pending run of
two or more newlines is a separator (the leftmost-longest match of
`\n{2,}`); a single pending newline belongs to the segment. -/
def splitParaGo : List Char → Nat → List Char → List (List Char)
  | acc, pending, [] =>
    if 2 ≤ pending then [acc.reverse, []]
    else [acc.reverse ++ List.replicate pending '\n']
  | acc, pending, '\n' :: rest => splitParaGo acc (pending + 1) rest
  | acc, pending, c :: rest =>
    if 2 ≤ pending then acc.reverse :: splitParaGo [c] 0 rest
    else splitParaGo (c :: (List.replicate pending '\n' ++ acc)) 0 rest

/-- `re.split(r"\n{2,}", s)`. -/
def splitPara (s : List Char) : List (List Char) := splitParaGo [] 0 s

/-- The paragraph loop of `_split_text` (`manual_utils.py`), emission style.
Oversized paragraphs flush the running chunk and are delegated to
`chunk_text`; otherwise the greedy packing tracks token and character counts
including the `"\n\n"` separator overhead. -/
def splitTextLoop (maxTokens maxChars sepTokens sepChars : Nat) :
    List (List Char) → List (List Char) → Nat → Nat → List (List Char)
  | [], current, _, _ =>
    if current.isEmpty then [] else [strip (interNN current)]
  | para :: rest, current, tc, cc =>
    let p := strip para
    if p.isEmpty then splitTextLoop maxTokens maxChars sepTokens sepChars rest current tc cc
    else
      let ptokens := countTokens p
      let pchars := p.length
      if maxTokens < ptokens || maxChars < pchars then
        (if current.isEmpty then [] else [strip (interNN current)]) ++
          (chunkText simpleEncode p maxTokens).map strip ++
          splitTextLoop maxTokens maxChars sepTokens sepChars rest [] 0 0
      else
        let extraTokens := if current.isEmpty then ptokens else ptokens + sepTokens
        let extraChars := if current.isEmpty then pchars else pchars + sepChars
        if maxTokens < tc + extraTokens || maxChars < cc + extraChars then
          (if current.isEmpty then [] else [strip (interNN current)]) ++
            splitTextLoop maxTokens maxChars sepTokens sepChars rest [p] ptokens pchars
        else
          splitTextLoop maxTokens maxChars sepTokens sepChars rest
            (current ++ [p]) (tc + extraTokens) (cc + extraChars)

/-- `_split_text(text, max_tokens, max_chars)` (`manual_utils.py`); the
module-level `TOKENIZER` is the fallback tokenizer (`tiktoken` absent), so
`sep_tokens = max(_count_tokens("\n\n"), 1)` and `sep_chars = 2`. -/
def splitTextM (text : List Char) (maxTokens maxChars : Nat) : List (List Char) :=
  splitTextLoop maxTokens maxChars (max (countTokens (chars "\n\n")) 1) 2
    (splitPara (strip text)) [] 0 0

/-- `REQUIRED_SECTIONS` (`explaincode.py`). -/
def requiredSections : List String :=
  ["Overview", "Purpose & Problem Solving", "How to Run", "Inputs", "Outputs",
   "System Requirements", "Examples"]

/-- `infer_sections` (`explaincode.py`): the heuristic non-LLM fallback, as
the ordered association list the Python dict holds. -/
def inferSections (text : List Char) : List (String × List Char) :=
  let t := strip text
  if t.isEmpty then
    requiredSections.map (fun k => (k, chars "No information provided."))
  else
    ("Overview", t) ::
      (requiredSections.drop 1).map (fun k => (k, chars (k ++ " details (inferred)")))

/-- `"\n".join(f"{k}: {v}" for k, v in infer_sections(text).items())` — the
heuristic result `_summarize_manual` returns when every chunk fails. -/
def heuristicResult (text : List Char) : List Char :=
  interNL ((inferSections text).map (fun kv => chars kv.1 ++ ':' :: ' ' :: kv.2))

/-- The cache keys used by the map stage: `make_key(f"{source}:chunk{idx}", part)`. -/
def chunkKeys (digest : String → String) (source : String) :
    List (List Char) → Nat → List String
  | [], _ => []
  | part :: rest, idx =>
    makeKey digest (source ++ ":chunk" ++ toString idx) (some (String.mk part)) ::
      chunkKeys digest source rest (idx + 1)

/-- The map stage of `_summarize_manual` (`manual_utils.py`, lines 117–173):
per chunk, a cache hit is sanitized and recorded; a miss dispatches
`client.summarize` (the thread pool is modelled sequentially — results are
keyed by index and re-sorted, so completion order is immaterial); a raised
exception is logged and the chunk omitted; a fresh response is cached and
recorded unsanitized.  The summarizer is a function to `Except` (prompt
type and system prompt are fixed at each call site and omitted).  A cached
value that is not a string cannot arise from the writes modelled here and is
treated as a miss. -/
def mapStageGo (client : List Char → Except Unit (List Char))
    (digest : String → String) (source : String) :
    List (List Char) → Nat → CacheState → (List (Nat × List Char) × CacheState)
  | [], _, cache => ([], cache)
  | part :: rest, idx, cache =>
    let key := makeKey digest (source ++ ":chunk" ++ toString idx)
      (some (String.mk part))
    match cacheGet cache key with
    | some (CVal.str c) =>
      let r := sanitizeSummary (chars c)
      let out := mapStageGo client digest source rest (idx + 1) cache
      ((idx, r) :: out.1, out.2)
    | _ =>
      match client part with
      | .error _ => mapStageGo client digest source rest (idx + 1) cache
      | .ok resp =>
        let cache' := cacheSet cache key (String.mk resp)
        let out := mapStageGo client digest source rest (idx + 1) cache'
        ((idx, resp) :: out.1, out.2)

/-- One pass of the hierarchical merge loop (`manual_utils.py`, lines
206–232): summarize each piece under the `merge{iteration}` cache keys,
skipping pieces whose call raises. -/
def mergePass (client : List Char → Except Unit (List Char))
    (digest : String → String) (source : String) (iter : Nat) :
    List (List Char) → Nat → CacheState → (List (List Char) × CacheState)
  | [], _, cache => ([], cache)
  | piece :: rest, idx, cache =>
    let key := makeKey digest
      (source ++ ":merge" ++ toString iter ++ ":chunk" ++ toString idx)
      (some (String.mk piece))
    match cacheGet cache key with
    | some (CVal.str c) =>
      let r := sanitizeSummary (chars c)
      let out := mergePass client digest source iter rest (idx + 1) cache
      (r :: out.1, out.2)
    | _ =>
      match client piece with
      | .error _ => mergePass client digest source iter rest (idx + 1) cache
      | .ok resp =>
        let cache' := cacheSet cache key (String.mk resp)
        let out := mergePass client digest source iter rest (idx + 1) cache'
        (resp :: out.1, out.2)

/-- The `while tokens > 2000 or chars > 6000` merge loop of
`_summarize_manual` (lines 190–237).  The loop body has no iteration cap —
`iteration` is only logged — so the embedding carries explicit `fuel`;
`none` marks a run that exhausts any given fuel, i.e. divergence.  The loop
exits when the merge input falls within limits or a pass yields no partials
(`if not new_partials: break`). -/
def mergeLoop (client : List Char → Except Unit (List Char))
    (digest : String → String) (source : String) :
    Nat → List Char → Nat → CacheState → Option (List Char × CacheState)
  | fuel, mergeInput, iteration, cache =>
    if countTokens mergeInput ≤ 2000 ∧ mergeInput.length ≤ 6000 then
      some (mergeInput, cache)
    else
      match fuel with
      | 0 => none
      | fuel + 1 =>
        let subParts := splitTextM mergeInput 2000 6000
        let out := mergePass client digest source (iteration + 1) subParts 1 cache
        if out.1.isEmpty then some (mergeInput, out.2)
        else mergeLoop client digest source fuel (interNN out.1) (iteration + 1) out.2

/-- `_summarize_manual` (`manual_utils.py`).  The result is `none` when the
merge loop exhausts its fuel (divergence), `some (.error _)` when an
exception propagates (possible only on the unchunked path), and
`some (.ok (text, cache))` otherwise. -/
def summarizeManual (fuel : Nat) (client : List Char → Except Unit (List Char))
    (digest : String → String) (cache : CacheState) (text : List Char)
    (chunking : String) (source : String)
    (hook : Option (List (List Char) → List (List Char))) :
    Option (Except Unit (List Char × CacheState)) :=
  if text.isEmpty then some (.ok ([], cache))
  else
    let withinLimits := countTokens text ≤ 2000 ∧ text.length ≤ 6000
    if chunking = "manual" ∨ (chunking = "auto" ∧ ¬withinLimits) then
      let parts := splitTextM text 2000 6000
      let stage := mapStageGo client digest source parts 1 cache
      if stage.1.isEmpty then some (.ok (heuristicResult text, stage.2))
      else
        let ordered : List (Nat × List Char) := match hook with
          | none => stage.1
          | some f =>
            (f (stage.1.map (fun p : Nat × List Char => p.2))).enum.map
              (fun iv : Nat × List Char => (iv.1 + 1, iv.2))
        let mergeInput := interNN (ordered.map (fun p : Nat × List Char => p.2))
        match mergeLoop client digest source fuel mergeInput 0 stage.2 with
        | none => none
        | some (m, cache2) =>
          let key := makeKey digest (source ++ ":final") (some (String.mk m))
          match cacheGet cache2 key with
          | some (CVal.str c) =>
            some (.ok (sanitizeSummary (sanitizeSummary (chars c)), cache2))
          | _ =>
            match client m with
            | .ok resp =>
              some (.ok (sanitizeSummary resp, cacheSet cache2 key (String.mk resp)))
            | .error _ => some (.ok (m, cache2))
    else
      let key := makeKey digest (source ++ ":full") (some (String.mk text))
      match cacheGet cache key with
      | some (CVal.str c) => some (.ok (sanitizeSummary (chars c), cache))
      | _ =>
        match client text with
        | .ok resp =>
          some (.ok (sanitizeSummary resp, cacheSet cache key (String.mk resp)))
        | .error e => some (.error e)

theorem dropWhile_eq_self_of {p : Char → Bool} :
    ∀ s : List Char, (∀ c ∈ s, p c = false) → s.dropWhile p = s
  | [], _ => rfl
  | c :: rest, h => by
    rw [List.dropWhile_cons, h c (by simp)]
    simp

theorem strip_eq_self_of {s : List Char} (h : ∀ c ∈ s, isSpace c = false) :
    strip s = s := by
  have h1 : lstrip s = s := dropWhile_eq_self_of s h
  rw [strip, h1, rstrip, dropWhile_eq_self_of _ (by intro c hc; exact h c (by simpa using hc))]
  simp

theorem splitlinesGo_cons_other {c : Char} (hcr : c ≠ '\r')
    (hlb : isLineBreak c = false) (acc rest : List Char) :
    splitlinesGo acc (c :: rest) = splitlinesGo (c :: acc) rest := by
  rw [splitlinesGo.eq_def]
  split
  all_goals simp_all

theorem splitlinesGo_nobreak :
    ∀ (s acc : List Char), (∀ c ∈ s, isLineBreak c = false) →
      ¬(acc = [] ∧ s = []) → splitlinesGo acc s = [acc.reverse ++ s] := by
  intro s
  induction s with
  | nil =>
    intro acc _ hne
    have hacc : acc ≠ [] := by
      intro h
      exact hne ⟨h, rfl⟩
    simp only [splitlinesGo]
    rw [if_neg (by simpa [List.isEmpty_iff] using hacc)]
    simp
  | cons c rest ih =>
    intro acc hlb hne
    have hc : isLineBreak c = false := hlb c (by simp)
    have hcr : c ≠ '\r' := by
      intro h
      rw [h] at hc
      simp [isLineBreak] at hc
    rw [splitlinesGo_cons_other hcr hc]
    rw [ih (c :: acc) (fun x hx => hlb x (by simp [hx])) (by simp)]
    simp

theorem splitlines_nobreak {s : List Char} (h : ∀ c ∈ s, isLineBreak c = false)
    (hne : s ≠ []) : splitlines s = [s] := by
  rw [splitlines, splitlinesGo_nobreak s [] h (by simp [hne])]
  simp

theorem stripFimGo_cons_other {c : Char} (hc : c ≠ '<') (fuel : Nat)
    (rest : List Char) :
    stripFimGo (fuel + 1) (c :: rest) = c :: stripFimGo fuel rest := by
  rw [stripFimGo.eq_def]
  split
  all_goals simp_all

theorem stripFimGo_eq_self_of :
    ∀ (fuel : Nat) (s : List Char), (∀ c ∈ s, c ≠ '<') → stripFimGo fuel s = s
  | _, [], _ => by
    rw [stripFimGo.eq_def]
    split
    all_goals simp_all
  | 0, c :: rest, _ => by rw [stripFimGo.eq_def]
  | fuel + 1, c :: rest, h => by
    rw [stripFimGo_cons_other (h c (by simp)) fuel rest,
      stripFimGo_eq_self_of fuel rest (fun x hx => h x (by simp [hx]))]

theorem stripFim_eq_self_of (s : List Char) (h : ∀ c ∈ s, c ≠ '<') :
    stripFim s = s :=
  stripFimGo_eq_self_of s.length s h

theorem stripFim6Go_cons_other {c : Char} (hc : c ≠ '<') (fuel : Nat)
    (rest : List Char) :
    stripFim6Go (fuel + 1) (c :: rest) = c :: stripFim6Go fuel rest := by
  rw [stripFim6Go.eq_def]
  split
  all_goals simp_all

theorem stripFim6Go_eq_self_of :
    ∀ (fuel : Nat) (s : List Char), (∀ c ∈ s, c ≠ '<') → stripFim6Go fuel s = s
  | _, [], _ => by
    rw [stripFim6Go.eq_def]
    split
    all_goals simp_all
  | 0, c :: rest, _ => by rw [stripFim6Go.eq_def]
  | fuel + 1, c :: rest, h => by
    rw [stripFim6Go_cons_other (h c (by simp)) fuel rest,
      stripFim6Go_eq_self_of fuel rest (fun x hx => h x (by simp [hx]))]

theorem stripFim6_eq_self_of (s : List Char) (h : ∀ c ∈ s, c ≠ '<') :
    stripFim6 s = s :=
  stripFim6Go_eq_self_of s.length s h

theorem splitParaGo_cons_other {c : Char} (hc : c ≠ '\n') (acc : List Char)
    (rest : List Char) :
    splitParaGo acc 0 (c :: rest) = splitParaGo (c :: acc) 0 rest := by
  rw [splitParaGo.eq_def]
  split
  all_goals simp_all

theorem splitParaGo_nonl :
    ∀ (s acc : List Char), (∀ c ∈ s, c ≠ '\n') →
      splitParaGo acc 0 s = [acc.reverse ++ s] := by
  intro s
  induction s with
  | nil =>
    intro acc _
    simp [splitParaGo]
  | cons c rest ih =>
    intro acc h
    rw [splitParaGo_cons_other (h c (by simp)) acc rest,
      ih (c :: acc) (fun x hx => h x (by simp [hx]))]
    simp

theorem splitPara_nonl {s : List Char} (h : ∀ c ∈ s, c ≠ '\n') :
    splitPara s = [s] := by
  rw [splitPara, splitParaGo_nonl s [] h]
  simp

theorem map_id_of {f : Char → Char} :
    ∀ (s : List Char), (∀ c ∈ s, f c = c) → s.map f = s
  | [], _ => rfl
  | c :: rest, h => by
    rw [List.map_cons, h c (by simp), map_id_of rest (fun x hx => h x (by simp [hx]))]

theorem head_ne_isPrefixOf {p : List Char} {c d : Char} (hp : p.head? = some c)
    (hne : c ≠ d) (l : List Char) : p.isPrefixOf (d :: l) = false := by
  cases p with
  | nil => simp at hp
  | cons a as =>
    simp only [List.head?_cons, Option.some.injEq] at hp
    subst hp
    simp [List.isPrefixOf, hne]

theorem isSubstring_subset {p : List Char} :
    ∀ (l : List Char), isSubstring p l = true → ∀ c ∈ p, c ∈ l
  | [], h => by
    have hp : p = [] := by
      simpa [isSubstring, List.isEmpty_iff] using h
    subst hp
    intro c hc
    simp at hc
  | d :: rest, h => by
    simp only [isSubstring, Bool.or_eq_true] at h
    rcases h with h1 | h2
    · exact fun c hc => (List.isPrefixOf_iff_prefix.mp h1).subset hc
    · exact fun c hc => List.mem_cons_of_mem d (isSubstring_subset rest h2 c hc)

theorem contains_eq_false_of_short :
    ∀ (L : List (List Char)) (n : Nat), (∀ e ∈ L, e.length < n) →
      ∀ (M : List Char), n ≤ M.length → L.contains M = false
  | [], _, _, _, _ => rfl
  | e :: L, n, hL, M, hM => by
    have he : (M == e) = false := by
      rw [beq_eq_false_iff_ne]
      intro h
      subst h
      exact absurd (hL M (by simp)) (by omega)
    simp only [List.contains_cons, he, Bool.false_or]
    exact contains_eq_false_of_short L n (fun x hx => hL x (by simp [hx])) M hM

theorem interNN_single (b : List Char) : interNN [b] = b := rfl

set_option maxRecDepth 4096 in
theorem promptLineSet_short : ∀ e ∈ promptLineSet, e.length < 300 := by decide

set_option maxRecDepth 4096 in
theorem systemPromptLines_short : ∀ e ∈ systemPromptLines, e.length < 300 := by decide

/-- On a long unbroken all-`'a'` line, every filter of `sanitize_summary`
passes and the line is kept unchanged. -/
theorem sanitizeLine_replicate {m : Nat} (hm : 300 ≤ m + 1) :
    sanitizeLine (List.replicate (m + 1) 'a') = some (List.replicate (m + 1) 'a') := by
  have hmem : ∀ c ∈ List.replicate (m + 1) 'a', c = 'a' :=
    fun c hc => List.eq_of_mem_replicate hc
  have hstrip : strip (List.replicate (m + 1) 'a') = List.replicate (m + 1) 'a' :=
    strip_eq_self_of (fun c hc => by rw [hmem c hc]; rfl)
  have hlow : lowerStr (List.replicate (m + 1) 'a') = List.replicate (m + 1) 'a' := by
    rw [lowerStr]
    exact map_id_of _ (fun c hc => by rw [hmem c hc]; decide)
  have hcons : List.replicate (m + 1) 'a' = 'a' :: List.replicate m 'a' :=
    List.replicate_succ ..
  have hlen : (300 : Nat) ≤ (List.replicate (m + 1) 'a').length := by
    rw [List.length_replicate]
    omega
  have hcont1 : promptLineSet.contains (List.replicate (m + 1) 'a') = false :=
    contains_eq_false_of_short _ 300 promptLineSet_short _ hlen
  have hcont2 : systemPromptLines.contains (List.replicate (m + 1) 'a') = false :=
    contains_eq_false_of_short _ 300 systemPromptLines_short _ hlen
  have hdash : ((List.replicate (m + 1) 'a').head? = some '-' ||
      (List.replicate (m + 1) 'a').head? = some '*') = false := by
    rw [hcons]
    rfl
  have hbsp : badStartPhrases.any
      (fun p => p.isPrefixOf (List.replicate (m + 1) 'a')) = false := by
    simp only [List.any_eq_false]
    intro p hp
    have hhp : ∃ c, p.head? = some c ∧ c ≠ 'a' := by
      fin_cases hp <;> exact ⟨_, rfl, by decide⟩
    obtain ⟨c, hc1, hc2⟩ := hhp
    rw [hcons, head_ne_isPrefixOf hc1 hc2]
    simp
  have hgen : ∀ p : List Char, ' ' ∈ p →
      isSubstring p (List.replicate (m + 1) 'a') = false := by
    intro p hsp
    rw [Bool.eq_false_iff]
    intro hsub
    exact absurd (hmem _ (isSubstring_subset _ hsub ' ' hsp)) (by decide)
  have hbc : badContains.any
      (fun p => isSubstring p (List.replicate (m + 1) 'a')) = false := by
    simp only [List.any_eq_false]
    intro p hp
    rw [hgen p (by fin_cases hp <;> decide)]
    simp
  have hmts : matchThisScript (List.replicate (m + 1) 'a') = false := by
    rw [matchThisScript]
    simp only [List.any_eq_false]
    intro p hp
    have hhp : ∃ c, p.head? = some c ∧ c ≠ 'a' := by
      fin_cases hp <;> exact ⟨_, rfl, by decide⟩
    obtain ⟨c, hc1, hc2⟩ := hhp
    rw [hcons, head_ne_isPrefixOf hc1 hc2]
    simp
  simp only [sanitizeLine]
  rw [hstrip, hlow, hcont1, hcont2, hdash, hbsp, hbc, hmts,
    hgen (chars "this summary") (by decide), hgen (chars "this output") (by decide),
    hgen (chars "this response") (by decide), hgen (chars "does not include") (by decide),
    hgen (chars "avoids addressing") (by decide)]
  simp

/-- `sanitize_summary` leaves a long unbroken all-`'a'` text unchanged. -/
theorem sanitizeSummary_replicate {n : Nat} (hn : 300 ≤ n) :
    sanitizeSummary (List.replicate n 'a') = List.replicate n 'a' := by
  obtain ⟨m, rfl⟩ : ∃ m, n = m + 1 := ⟨n - 1, by omega⟩
  have hmem : ∀ c ∈ List.replicate (m + 1) 'a', c = 'a' :=
    fun c hc => List.eq_of_mem_replicate hc
  have hstrip : strip (List.replicate (m + 1) 'a') = List.replicate (m + 1) 'a' :=
    strip_eq_self_of (fun c hc => by rw [hmem c hc]; rfl)
  have hne : strip (List.replicate (m + 1) 'a') ≠ chars "project summary" := by
    rw [hstrip]
    intro h
    have hl := congrArg List.length h
    rw [List.length_replicate] at hl
    have h15 : (chars "project summary").length = 15 := rfl
    rw [h15] at hl
    omega
  have hfim : stripFim6 (List.replicate (m + 1) 'a') = List.replicate (m + 1) 'a' :=
    stripFim6_eq_self_of _ (fun c hc => by rw [hmem c hc]; decide)
  have hlines : splitlines (List.replicate (m + 1) 'a') =
      [List.replicate (m + 1) 'a'] :=
    splitlines_nobreak (fun c hc => by rw [hmem c hc]; rfl)
      (by rw [List.replicate_succ]; simp)
  rw [sanitizeSummary, if_neg hne, hfim, hstrip, hlines]
  simp only [List.filterMap_cons, List.filterMap_nil, sanitizeLine_replicate hn]
  rw [interNL_single, hstrip]

/-- The fallback tokenizer counts an all-`'a'` word as a single token. -/
theorem countTokens_replicate {n : Nat} (hn : 0 < n) :
    countTokens (List.replicate n 'a') = 1 := by
  have hfim : stripFim (List.replicate n 'a') = List.replicate n 'a' :=
    stripFim_eq_self_of _ (fun c hc => by rw [List.eq_of_mem_replicate hc]; decide)
  have hrep_ne : List.replicate n 'a' ≠ [] := by
    intro h
    have hl := congrArg List.length h
    rw [List.length_replicate] at hl
    simp at hl
    omega
  rw [countTokens, simpleEncode, hfim, wordsOf]
  exact wordsGo_nospace _ []
    (fun c hc => by rw [List.eq_of_mem_replicate hc]; rfl) (Or.inr hrep_ne)

/-- `_split_blocks` keeps a single all-`'a'` line as one block. -/
theorem splitBlocks_replicate {m : Nat} :
    splitBlocks (List.replicate (m + 1) 'a') = [List.replicate (m + 1) 'a'] := by
  have hmem : ∀ c ∈ List.replicate (m + 1) 'a', c = 'a' :=
    fun c hc => List.eq_of_mem_replicate hc
  have hstrip : strip (List.replicate (m + 1) 'a') = List.replicate (m + 1) 'a' :=
    strip_eq_self_of (fun c hc => by rw [hmem c hc]; rfl)
  have hcons : List.replicate (m + 1) 'a' = 'a' :: List.replicate m 'a' :=
    List.replicate_succ ..
  have hlines : splitlines (List.replicate (m + 1) 'a') =
      [List.replicate (m + 1) 'a'] :=
    splitlines_nobreak (fun c hc => by rw [hmem c hc]; rfl) (by rw [hcons]; simp)
  have hfence : startsFence (List.replicate (m + 1) 'a') = false := by
    obtain ⟨c, hc1, hc2⟩ : ∃ c, fenceMark.head? = some c ∧ c ≠ 'a' :=
      ⟨_, rfl, by decide⟩
    rw [startsFence, hcons, head_ne_isPrefixOf hc1 hc2]
  have hblank : isBlank (List.replicate (m + 1) 'a') = false := by
    rw [isBlank, hstrip, hcons]
    rfl
  have hlstrip : lstrip (List.replicate (m + 1) 'a') = List.replicate (m + 1) 'a' :=
    dropWhile_eq_self_of _ (fun c hc => by rw [hmem c hc]; rfl)
  have hheading : isHeading (List.replicate (m + 1) 'a') = false := by
    rw [isHeading, hlstrip, hcons]
    rfl
  have hempty : (List.replicate (m + 1) 'a').isEmpty = false := by
    rw [hcons]
    rfl
  rw [splitBlocks, hlines]
  simp only [splitBlocksLoop, hfence, hblank, hheading, Bool.false_eq_true,
    if_false, List.nil_append, emitBlock, interNL_single, hstrip, hempty,
    List.isEmpty_nil, List.isEmpty_cons, if_true]

/-- `chunk_text` at budget 2000 keeps the single one-token all-`'a'` block
whole. -/
theorem chunkText_replicate {m : Nat} :
    chunkText simpleEncode (List.replicate (m + 1) 'a') 2000 =
      [List.replicate (m + 1) 'a'] := by
  have htok : (simpleEncode (List.replicate (m + 1) 'a')).length = 1 := by
    have h : countTokens (List.replicate (m + 1) 'a') = 1 :=
      countTokens_replicate (by omega)
    rwa [countTokens] at h
  rw [chunkText, splitBlocks_replicate]
  simp [chunkTextLoop, htok, interNN_single]

/-- `_split_text` on an oversized-by-characters all-`'a'` text delegates to
`chunk_text` and returns the text as its only piece. -/
theorem splitTextM_replicate {n : Nat} (hn : 6000 < n) :
    splitTextM (List.replicate n 'a') 2000 6000 = [List.replicate n 'a'] := by
  obtain ⟨m, rfl⟩ : ∃ m, n = m + 1 := ⟨n - 1, by omega⟩
  have hmem : ∀ c ∈ List.replicate (m + 1) 'a', c = 'a' :=
    fun c hc => List.eq_of_mem_replicate hc
  have hstrip : strip (List.replicate (m + 1) 'a') = List.replicate (m + 1) 'a' :=
    strip_eq_self_of (fun c hc => by rw [hmem c hc]; rfl)
  have hpara : splitPara (List.replicate (m + 1) 'a') =
      [List.replicate (m + 1) 'a'] :=
    splitPara_nonl (fun c hc => by rw [hmem c hc]; decide)
  have hempty : (List.replicate (m + 1) 'a').isEmpty = false := by
    rw [List.replicate_succ]
    rfl
  have htok : countTokens (List.replicate (m + 1) 'a') = 1 :=
    countTokens_replicate (by omega)
  have hbig : (decide (6000 < (List.replicate (m + 1) 'a').length) : Bool) = true := by
    rw [List.length_replicate]
    exact decide_eq_true hn
  rw [splitTextM, hstrip, hpara]
  simp only [splitTextLoop, hstrip, hempty, htok, hbig, List.length_replicate,
    Bool.false_eq_true, if_false, List.isEmpty_nil, if_true, Bool.or_true,
    List.nil_append, chunkText_replicate, List.map_cons, List.map_nil,
    List.append_nil]
  rw [decide_eq_true hn]
  simp

/-- A summarizer that returns its input unchanged: it never raises and its
output never shrinks relative to its input. -/
def idClient : List Char → Except Unit (List Char) := fun s => .ok s

/-- Invariant for the divergence argument: every string value stored in the
cache equals `v` (non-string values, such as the progress object, are
unconstrained). -/
def allStrEq (v : String) (c : CacheState) : Prop :=
  ∀ kv ∈ c.data, ∀ s : String, kv.2 = CVal.str s → s = v

theorem dictGet_mem {d : List (String × CVal)} {k : String} {v : CVal} :
    dictGet d k = some v → (k, v) ∈ d := by
  induction d with
  | nil => intro h; simp [dictGet] at h
  | cons p rest ih =>
    obtain ⟨k0, v0⟩ := p
    intro h
    by_cases h0 : k0 = k
    · subst h0
      simp [dictGet] at h
      subst h
      exact List.mem_cons_self _ _
    · simp only [dictGet, if_neg h0] at h
      exact List.mem_cons_of_mem _ (ih h)

theorem allStrEq_dictSet {v : String} {d : List (String × CVal)}
    (h : ∀ kv ∈ d, ∀ s : String, kv.2 = CVal.str s → s = v) (k : String) :
    ∀ kv ∈ dictSet d k (CVal.str v), ∀ s : String, kv.2 = CVal.str s → s = v := by
  induction d with
  | nil =>
    intro kv hkv s hs
    simp only [dictSet, List.mem_singleton] at hkv
    subst hkv
    injection hs with hh
    exact hh.symm
  | cons p rest ih =>
    obtain ⟨k0, v0⟩ := p
    intro kv hkv s hs
    by_cases h0 : k0 = k
    · rw [dictSet, if_pos h0] at hkv
      rcases List.mem_cons.mp hkv with rfl | hm
      · injection hs with hh
        exact hh.symm
      · exact h kv (List.mem_cons_of_mem _ hm) s hs
    · rw [dictSet, if_neg h0] at hkv
      rcases List.mem_cons.mp hkv with rfl | hm
      · exact h (k0, v0) (List.mem_cons_self _ _) s hs
      · exact ih (fun kv2 hkv2 => h kv2 (List.mem_cons_of_mem _ hkv2)) kv hm s hs

theorem allStrEq_cacheSet {v : String} {c : CacheState}
    (h : allStrEq v c) (k : String) : allStrEq v (cacheSet c k v) := by
  intro kv hkv s hs
  exact allStrEq_dictSet h k kv (by simpa [cacheSet, cacheSave] using hkv) s hs

theorem allStrEq_get {v : String} {c : CacheState} (h : allStrEq v c)
    {k : String} {s : String} (hg : cacheGet c k = some (CVal.str s)) : s = v :=
  h (k, CVal.str s) (dictGet_mem hg) s rfl

theorem allStrEq_init (v : String) : allStrEq v (cacheInit none) := by
  intro kv hkv s hs
  simp only [cacheInit, dictGet, dictSet, List.mem_singleton] at hkv
  subst hkv
  simp at hs

/-- One merge pass over the single oversized all-`'a'` piece with the
identity summarizer reproduces the piece exactly, preserving the cache
invariant: a cache hit returns the sanitized stored value (which the
invariant pins to the piece itself, and sanitization leaves it unchanged),
and a miss returns the identity response and caches it. -/
theorem mergePass_replicate {n : Nat} (hn : 300 ≤ n) (digest : String → String)
    (source : String) (iter idx : Nat) {cache : CacheState}
    (h : allStrEq (String.mk (List.replicate n 'a')) cache) :
    (mergePass idClient digest source iter [List.replicate n 'a'] idx cache).1 =
        [List.replicate n 'a'] ∧
      allStrEq (String.mk (List.replicate n 'a'))
        (mergePass idClient digest source iter [List.replicate n 'a'] idx cache).2 := by
  simp only [mergePass]
  cases hg : cacheGet cache (makeKey digest
      (source ++ ":merge" ++ toString iter ++ ":chunk" ++ toString idx)
      (some (String.mk (List.replicate n 'a')))) with
  | none =>
    simp only [idClient]
    exact ⟨trivial, allStrEq_cacheSet h _⟩
  | some val =>
    cases val with
    | str c =>
      have hc : c = String.mk (List.replicate n 'a') := allStrEq_get h hg
      subst hc
      have hchars : chars (String.mk (List.replicate n 'a')) =
          List.replicate n 'a' := rfl
      simp only [hchars, sanitizeSummary_replicate hn]
      exact ⟨trivial, h⟩
    | obj o =>
      simp only [idClient]
      exact ⟨trivial, allStrEq_cacheSet h _⟩

/-- With the identity summarizer on the single oversized all-`'a'` merge
input, the `while tokens > 2000 or chars > 6000` loop never makes progress:
every pass reproduces the same oversized input, so the loop exhausts any
finite fuel. -/
theorem mergeLoop_replicate {n : Nat} (hn : 6000 < n) (digest : String → String)
    (source : String) :
    ∀ (fuel iter : Nat) (cache : CacheState),
      allStrEq (String.mk (List.replicate n 'a')) cache →
      mergeLoop idClient digest source fuel (List.replicate n 'a') iter cache =
        none := by
  intro fuel
  induction fuel with
  | zero =>
    intro iter cache h
    rw [mergeLoop,
      if_neg (fun hc => absurd hc.2 (by rw [List.length_replicate]; omega))]
  | succ fuel ih =>
    intro iter cache h
    rw [mergeLoop,
      if_neg (fun hc => absurd hc.2 (by rw [List.length_replicate]; omega))]
    simp only [splitTextM_replicate hn]
    obtain ⟨h1, h2⟩ := mergePass_replicate (by omega) digest source (iter + 1) 1 h
    rw [h1]
    simp only [List.isEmpty_cons, Bool.false_eq_true, if_false, interNN_single]
    exact ih (iter + 1) _ h2

theorem cacheGet_init_makeKey (digest : String → String) (fp : String)
    (content : Option String) :
    cacheGet (cacheInit none) (makeKey digest fp content) = none := by
  have h := makeKey_ne_progress digest fp content
  simp [cacheGet, cacheInit, dictGet, dictSet, Ne.symm h]

/-- C4: contrary to the claim, the hierarchical reduce loop of
`_summarize_manual` has no iteration cap — `iteration` is incremented only
for logging and the `while tokens > 2000 or chars > 6000` loop carries no
other exit for a summarizer that always succeeds.  For the summarizer that
returns its input unchanged (outputs never shrink) on a 6001-character
single-word text with a fresh cache, the loop diverges: for every finite
fuel the embedded loop fails to terminate, instead of returning a best
available merge. -/
theorem c4_merge_loop_unbounded (fuel : Nat) (digest : String → String) :
    summarizeManual fuel idClient digest (cacheInit none)
      (List.replicate 6001 'a') "auto" "src" none = none := by
  have hn : (6000 : Nat) < 6001 := by omega
  have hne : (List.replicate 6001 'a').isEmpty = false :=
    Bool.eq_false_iff.mpr (fun hb => by
      have h := List.isEmpty_iff.mp hb
      have hl := congrArg List.length h
      rw [List.length_replicate] at hl
      simp at hl)
  have hwithin : ¬(countTokens (List.replicate 6001 'a') ≤ 2000 ∧
      (List.replicate 6001 'a').length ≤ 6000) := by
    intro hw
    rw [List.length_replicate] at hw
    omega
  rw [summarizeManual, hne]
  simp only [Bool.false_eq_true, if_false]
  rw [if_pos (Or.inr ⟨trivial, hwithin⟩)]
  rw [splitTextM_replicate hn]
  simp only [mapStageGo, cacheGet_init_makeKey, idClient]
  simp only [List.isEmpty_cons, Bool.false_eq_true, if_false, List.map_cons,
    List.map_nil, interNN_single]
  rw [mergeLoop_replicate hn digest "src" fuel 0 _
    (allStrEq_cacheSet (allStrEq_init _) _)]

/-- Python `enumerate(parts, idx)`. -/
def enumFrom : Nat → List (List Char) → List (Nat × List Char)
  | _, [] => []
  | i, p :: ps => (i, p) :: enumFrom (i + 1) ps

theorem cacheGet_cacheSet_other {c : CacheState} {k k' : String} (h : k ≠ k')
    (v : String) : cacheGet (cacheSet c k v) k' = cacheGet c k' := by
  simp only [cacheGet, cacheSet, cacheSave]
  exact dictGet_set_other c.data h (CVal.str v)

/-- The map stage, on chunks whose keys are pairwise distinct and all miss
the cache: every chunk whose summarization call raises is omitted, every
other chunk contributes its response at its original index, in order. -/
theorem mapStageGo_spec (client : List Char → Except Unit (List Char))
    (digest : String → String) (source : String) :
    ∀ (parts : List (List Char)) (idx : Nat) (cache : CacheState),
      (chunkKeys digest source parts idx).Pairwise (· ≠ ·) →
      (∀ k ∈ chunkKeys digest source parts idx, cacheGet cache k = none) →
      (mapStageGo client digest source parts idx cache).1 =
        (enumFrom idx parts).filterMap (fun ip =>
          match client ip.2 with
          | .ok r => some (ip.1, r)
          | .error _ => none)
  | [], idx, cache, _, _ => by simp [mapStageGo, enumFrom]
  | part :: rest, idx, cache, hpw, hmiss => by
    rw [chunkKeys] at hpw hmiss
    rw [List.pairwise_cons] at hpw
    simp only [mapStageGo, enumFrom, List.filterMap_cons]
    rw [hmiss _ (List.mem_cons_self _ _)]
    cases hcl : client part with
    | error e =>
      simp only [hcl]
      exact mapStageGo_spec client digest source rest (idx + 1) cache hpw.2
        (fun k hk => hmiss k (List.mem_cons_of_mem _ hk))
    | ok resp =>
      simp only [hcl]
      rw [mapStageGo_spec client digest source rest (idx + 1) _ hpw.2
        (fun k hk => by
          rw [cacheGet_cacheSet_other (hpw.1 k hk) (String.mk resp)]
          exact hmiss k (List.mem_cons_of_mem _ hk))]

/-- The map stage with a summarizer that raises on every chunk and a cache
that misses on every chunk key returns no partials and leaves the cache
unchanged. -/
theorem mapStageGo_all_fail (client : List Char → Except Unit (List Char))
    (digest : String → String) (source : String) :
    ∀ (parts : List (List Char)) (idx : Nat) (cache : CacheState),
      (∀ p ∈ parts, client p = .error ()) →
      (∀ k ∈ chunkKeys digest source parts idx, cacheGet cache k = none) →
      mapStageGo client digest source parts idx cache = ([], cache)
  | [], _, _, _, _ => rfl
  | part :: rest, idx, cache, hfail, hmiss => by
    rw [chunkKeys] at hmiss
    simp only [mapStageGo]
    rw [hmiss _ (List.mem_cons_self _ _), hfail part (List.mem_cons_self _ _)]
    exact mapStageGo_all_fail client digest source rest (idx + 1) cache
      (fun p hp => hfail p (List.mem_cons_of_mem _ hp))
      (fun k hk => hmiss k (List.mem_cons_of_mem _ hk))

/-- C5: during the map stage of `_summarize_manual` (chunk keys pairwise
distinct and absent from the cache), every chunk whose summarization call
raises is caught and omitted while the remaining chunks' responses are kept
at their original indices in original chunk order; and when the call raises
for every chunk, `_summarize_manual` returns the heuristic result built from
`infer_sections` instead of propagating an exception. -/
theorem c5_map_stage_fault_tolerance
    (client : List Char → Except Unit (List Char)) (digest : String → String)
    (source : String) :
    (∀ (parts : List (List Char)) (idx : Nat) (cache : CacheState),
        (chunkKeys digest source parts idx).Pairwise (· ≠ ·) →
        (∀ k ∈ chunkKeys digest source parts idx, cacheGet cache k = none) →
        (mapStageGo client digest source parts idx cache).1 =
          (enumFrom idx parts).filterMap (fun ip =>
            match client ip.2 with
            | .ok r => some (ip.1, r)
            | .error _ => none)) ∧
    (∀ (fuel : Nat) (cache : CacheState) (text : List Char),
        text ≠ [] →
        (∀ p ∈ splitTextM text 2000 6000, client p = .error ()) →
        (∀ k ∈ chunkKeys digest source (splitTextM text 2000 6000) 1,
          cacheGet cache k = none) →
        summarizeManual fuel client digest cache text "manual" source none =
          some (.ok (heuristicResult text, cache))) := by
  constructor
  · exact mapStageGo_spec client digest source
  · intro fuel cache text htne hfail hmiss
    have hne : text.isEmpty = false :=
      Bool.eq_false_iff.mpr (fun hb => htne (List.isEmpty_iff.mp hb))
    rw [summarizeManual, hne]
    simp only [Bool.false_eq_true, if_false]
    rw [if_pos (Or.inl trivial)]
    rw [mapStageGo_all_fail client digest source _ 1 cache hfail hmiss]
    simp

/-- Witness for `c5_map_stage_fault_tolerance`: chunks `["good part", "bad"]`
under a summarizer that raises exactly on `"bad"` yield the single partial
`(1, "good part")`; and on `"hi"` with a summarizer that always raises,
`_summarize_manual` returns the heuristic `infer_sections` result. -/
theorem c5_map_stage_fault_tolerance_witness :
    (chunkKeys (fun _ => "h") "src" [chars "good part", chars "bad"] 1).Pairwise
        (· ≠ ·) ∧
    (mapStageGo (fun p => if p = chars "bad" then Except.error () else Except.ok p)
        (fun _ => "h") "src" [chars "good part", chars "bad"] 1 (cacheInit none)).1 =
      [(1, chars "good part")] ∧
    chars "hi" ≠ [] ∧
    summarizeManual 3 (fun _ => Except.error ()) (fun _ => "h") (cacheInit none)
        (chars "hi") "manual" "src" none =
      some (.ok (heuristicResult (chars "hi"), cacheInit none)) := by
  have hkeys1 : chunkKeys (fun _ => "h") "src" [chars "good part", chars "bad"] 1 =
      ["src:chunk1:h", "src:chunk2:h"] := by decide
  have hkeys2 : chunkKeys (fun _ => "h") "src" (splitTextM (chars "hi") 2000 6000) 1 =
      ["src:chunk1:h"] := by decide
  refine ⟨by decide, ?_, by decide, ?_⟩
  · have h := (c5_map_stage_fault_tolerance
        (fun p => if p = chars "bad" then Except.error () else Except.ok p)
        (fun _ => "h") "src").1 [chars "good part", chars "bad"] 1 (cacheInit none)
        (by rw [hkeys1]; decide)
        (fun k hk => by
          rw [hkeys1] at hk
          rcases List.mem_cons.mp hk with rfl | hk2
          · rfl
          · rcases List.mem_singleton.mp hk2 with rfl
            rfl)
    exact h.trans (by decide)
  · exact (c5_map_stage_fault_tolerance (fun _ => Except.error ())
        (fun _ => "h") "src").2 3 (cacheInit none) (chars "hi") (by decide)
      (fun p _ => rfl)
      (fun k hk => by
        rw [hkeys2] at hk
        rcases List.mem_singleton.mp hk with rfl
        rfl)
